import Mathlib

/-!
LevelDBStorage: select and commit.

A shallow embedding of `libstorage/LevelDBStorage.cpp`: the query path `select`, the chunk
worker `commitTableDataRange` and the commit pipeline `commit`, with the properties the
storage specification states about them.

Conventions of the embedding.

* A C++ map (`std::map`, a JSON object) is the list of its bindings, with pairwise different
  names; `mapSet` is `m[name] = value` and `mapGet` is `m.find(name)`.
* The text of a persisted record is produced and parsed by the JSON library; the embedding
  stores the JSON value itself.
* `size_t` counters are natural numbers: they count keys of an in-memory map, so no
  arithmetic on them can wrap.
* Logging and the time measurements of `commit` have no effect on results and are left out.
-/

namespace LevelDBStorage

/-! ## Maps -/

/-- Assignment `m[name] = value` on a map kept as the list of its bindings: an existing
binding is overwritten in place, a new one is added. -/
def mapSet {β : Type} : List (String × β) → String → β → List (String × β)
  | [], name, value => [(name, value)]
  | (n, v) :: rest, name, value =>
      if n = name then (n, value) :: rest else (n, v) :: mapSet rest name value

/-- Lookup `m.find(name)` on a map kept as the list of its bindings. -/
def mapGet {β : Type} : List (String × β) → String → Option β
  | [], _ => none
  | (n, v) :: rest, name => if n = name then some v else mapGet rest name

/-- Well-formedness of a map kept as a list: no name is bound twice. -/
def NodupNames {β : Type} (m : List (String × β)) : Prop := (m.map Prod.fst).Nodup

instance instDecidableNodupNames {β : Type} (m : List (String × β)) : Decidable (NodupNames m) :=
  inferInstanceAs (Decidable (m.map Prod.fst).Nodup)

/-! ## Block hash -/

/-- Modelled from the spec: the block hash, a fixed-width (256 bit) identifier; `FixedHash.h`
is not part of the sources. -/
structure h256 where
  value : Nat
deriving DecidableEq

/-- Modelled from the spec: one lowercase hexadecimal digit. -/
def hexDigit (d : Nat) : Char :=
  "0123456789abcdef".data.getD d '0'

/-- Modelled from the spec: the `width` lowest hexadecimal digits of `v`, most significant
first. -/
def hexDigits : Nat → Nat → List Char
  | 0, _ => []
  | width + 1, v => hexDigits width (v / 16) ++ [hexDigit (v % 16)]

/-- Modelled from the spec: `h256::hex()`, the hash as 64 lowercase hexadecimal digits. -/
def h256.hex (h : h256) : String := String.mk (hexDigits 64 (h.value % 2 ^ 256))

/-! ## JSON values of a persisted record -/

/-- Modelled from the spec: a member value of a row object of the record format, a string
or an integer (`Json::Value` of the JSON library). -/
inductive JsonScalar where
  | str (s : String)
  | int (n : Int)
deriving DecidableEq

/-- Modelled from the spec: the conversion `asString()` of the JSON library; a string is
itself, an integer its decimal text. -/
def JsonScalar.asString : JsonScalar → String
  | .str s => s
  | .int n => toString n

/-- Modelled from the spec: a row object of the record format, the bindings of its members. -/
abbrev JsonObject := List (String × JsonScalar)

/-- Modelled from the spec: the persisted record, one array named "values" of row objects. -/
structure Record where
  values : List JsonObject
deriving DecidableEq

/-! ## Rows -/

/-- Modelled from the spec: `Entry` of `Table.h` (not part of the sources), one logical row:
a field set and the transient dirty flag. A new entry has no field; `setField` marks the
entry dirty. -/
structure Entry where
  fields : List (String × String)
  dirty : Bool
deriving DecidableEq

/-- Modelled from the spec: the status of a row, `NORMAL` or the hidden (tombstone) variant. -/
inductive Entry.Status where
  | NORMAL
  | DELETED
deriving DecidableEq

/-- Modelled from the spec: the status encoding, which belongs to the table layer and is not
part of the sources: the name of the status field and the decoding of its value (`none` when
the row has no such field). -/
structure StatusCodec where
  field : String
  decode : Option String → Entry.Status

/-- Modelled from the spec: the constructor `Entry()`, a row with no field. -/
def Entry.new : Entry := ⟨[], false⟩

/-- Modelled from the spec: the method `Entry::setField`; it marks the row dirty. -/
def Entry.setField (e : Entry) (name value : String) : Entry :=
  ⟨mapSet e.fields name value, true⟩

/-- Modelled from the spec: the method `Entry::setDirty`. -/
def Entry.setDirty (e : Entry) (dirty : Bool) : Entry := ⟨e.fields, dirty⟩

/-- Modelled from the spec: the method `Entry::getStatus`, the status field of the row,
decoded. -/
def Entry.getStatus (codec : StatusCodec) (e : Entry) : Entry.Status :=
  codec.decode (mapGet e.fields codec.field)

/-- Modelled from the spec: `Entries`, the ordered rows of one (table, key). -/
abbrev Entries := List Entry

/-- Modelled from the spec: `TableData`, a table name and the ordered mapping from row key
to `Entries`, kept as the list of its bindings in iteration order. -/
structure TableData where
  tableName : String
  data : List (String × Entries)
deriving DecidableEq

/-! ## The key-value engine -/

/-- Modelled from the spec: the status an engine operation reports (`leveldb::Status`): ok,
not-found, or any other failure with its text. -/
inductive DBStatus where
  | OK
  | NotFound
  | Fault (msg : String)
deriving DecidableEq

/-- Modelled from the spec: the test `Status::ok()`. -/
def DBStatus.ok : DBStatus → Bool
  | .OK => true
  | _ => false

/-- Modelled from the spec: the test `Status::IsNotFound()`. -/
def DBStatus.IsNotFound : DBStatus → Bool
  | .NotFound => true
  | _ => false

/-- Modelled from the spec: the text `Status::ToString()` of a status. -/
def DBStatus.ToString : DBStatus → String
  | .OK => "OK"
  | .NotFound => "NotFound: "
  | .Fault msg => msg

/-- Modelled from the spec: a write batch (`LevelDBWriteBatch`), the sequence of its puts. -/
abbrev WriteBatch := List (String × Record)

/-- Modelled from the spec: the method `LevelDBWriteBatch::insertSlice`, one more put at the
end of the batch. -/
def WriteBatch.insertSlice (batch : WriteBatch) (key : String) (value : Record) : WriteBatch :=
  batch ++ [(key, value)]

/-- Modelled from the spec: the method `LevelDBWriteBatch::append`, the puts of `other` after
those of the batch. -/
def WriteBatch.append (batch other : WriteBatch) : WriteBatch := batch ++ other

/-- Modelled from the spec: the persisted records after the puts of a batch are applied in
order. -/
def applyBatch (batch : WriteBatch) (data : String → Option Record) : String → Option Record :=
  batch.foldl (fun d put => fun k => if k = put.1 then some put.2 else d k) data

/-- Modelled from the spec: the KV engine adapter (`BasicLevelDB`, not part of the sources).
`data` holds the persisted records. `getFault` names the engine keys whose point lookup
fails and `writeFault` the write calls (counted from the first one issued on this engine)
that fail, each with the text of the failure. `gets` and `writes` record the lookups and the
write calls issued so far, a write call with its sync option and its batch. -/
structure BasicLevelDB where
  data : String → Option Record
  getFault : String → Option String
  writeFault : Nat → Option String
  gets : List String
  writes : List (Bool × WriteBatch)

/-- Modelled from the spec: the point lookup `Get(key)`, with the status and the value read;
the value is only written on an ok status and is the empty record otherwise. -/
def BasicLevelDB.Get (db : BasicLevelDB) (key : String) : DBStatus × Record × BasicLevelDB :=
  let db1 : BasicLevelDB := { db with gets := db.gets ++ [key] }
  match db.getFault key with
  | some msg => (.Fault msg, ⟨[]⟩, db1)
  | none =>
    match db.data key with
    | some value => (.OK, value, db1)
    | none => (.NotFound, ⟨[]⟩, db1)

/-- Modelled from the spec: the atomic write `Write(options, batch)`; on success every put of
the batch is applied, on failure none is. -/
def BasicLevelDB.Write (db : BasicLevelDB) (sync : Bool) (batch : WriteBatch) :
    DBStatus × BasicLevelDB :=
  match db.writeFault db.writes.length with
  | some msg => (.Fault msg, { db with writes := db.writes ++ [(sync, batch)] })
  | none =>
    (.OK, { db with data := applyBatch batch db.data, writes := db.writes ++ [(sync, batch)] })

/-! ## Outcomes -/

/-- Modelled from the spec: the exception `StorageException(errno, what)`. -/
structure StorageException where
  errno : Int
  what : String
deriving DecidableEq

/-- What a throw statement throws: the `StorageException` built at a throw site, or what
`BOOST_THROW_EXCEPTION(e)` throws for an exception `e` held by a reference of static type
`std::exception`: a copy of that static type, a plain `std::exception` that carries neither
the `errno` nor the message of the exception it was copied from. -/
inductive Exception where
  | storage (e : StorageException)
  | stdException
deriving DecidableEq

/-- How a call ends: it returns a value, it ends in an exception, or it does something the
language leaves undefined (a null batch pointer is dereferenced). -/
inductive Outcome (α : Type) where
  | returned (a : α)
  | thrown (e : Exception)
  | undefined
deriving DecidableEq

/-- The handlers `catch (std::exception& e)` of `select` (lines 84-90) and of `commit`
(lines 212-217): the exception caught is logged and `BOOST_THROW_EXCEPTION(e)` throws a
copy of static type `std::exception`. -/
def catchAndRethrow {α : Type} : Outcome α → Outcome α
  | .thrown _ => .thrown Exception.stdException
  | outcome => outcome

/-! ## select -/

/-- Lines 67-72 of `select`: a new entry with every member of the row object set as a field. -/
def decodeRow (obj : JsonObject) : Entry :=
  obj.foldl (fun entry member => entry.setField member.1 member.2.asString) Entry.new

/-- Lines 64-79 of `select`: the rows of the record in stored order, those of status
`NORMAL` added to the result with dirty = false. -/
def decodeRecord (codec : StatusCodec) (valueJson : Record) : Entries :=
  valueJson.values.foldl
    (fun entries obj =>
      let entry := decodeRow obj
      if entry.getStatus codec = Entry.Status.NORMAL then entries ++ [entry.setDirty false]
      else entries)
    []

/-- The try block of `select` (lines 37-83). -/
def selectTry (codec : StatusCodec) (db : BasicLevelDB) (table key : String) :
    Outcome Entries × BasicLevelDB :=
  let entryKey := (table.append "_").append key
  let (s, value, db1) := db.Get entryKey
  if !s.ok && !s.IsNotFound then
    (.thrown (.storage ⟨-1, "Query leveldb exception:" ++ s.ToString⟩), db1)
  else
    let entries : Entries := if !s.IsNotFound then decodeRecord codec value else []
    (.returned entries, db1)

/-- Function `LevelDBStorage::select(h256, int, table, key)`, the try block under its
handler; its first two arguments are unnamed and unused. -/
def select (codec : StatusCodec) (db : BasicLevelDB) (table key : String) :
    Outcome Entries × BasicLevelDB :=
  let r := selectTry codec db table key
  (catchAndRethrow r.1, r.2)

/-! ## commit -/

/-- Lines 120-126 of `commitTableDataRange`: the JSON object of one row. -/
def encodeRow (hash : h256) (num : Int) (row : Entry) : JsonObject :=
  let value : JsonObject := row.fields.foldl (fun v field => mapSet v field.1 (.str field.2)) []
  let value := mapSet value "_hash_" (.str hash.hex)
  mapSet value "_num_" (.int num)

/-- Lines 116-128 of `commitTableDataRange`: the record of the rows of one key. -/
def encodeEntries (hash : h256) (num : Int) (entries : Entries) : Record :=
  entries.foldl (fun entry row => ⟨entry.values ++ [encodeRow hash num row]⟩) ⟨[]⟩

/-- The loop of `commitTableDataRange` (lines 107-141); the first argument is what the
iterator `dataIt` still has before it. -/
def commitRangeLoop (tableName : String) (hash : h256) (num : Int) :
    List (String × Entries) → Nat → Nat → WriteBatch → Nat → WriteBatch × Nat
  | [], _, _, batch, total => (batch, total)
  | (key, entries) :: rest, from_, to_, batch, total =>
    if from_ < to_ then
      if entries.length = 0 then
        commitRangeLoop tableName hash num rest (from_ + 1) to_ batch total
      else
        let entryKey := tableName ++ "_" ++ key
        commitRangeLoop tableName hash num rest (from_ + 1) to_
          (batch.insertSlice entryKey (encodeEntries hash num entries)) (total + 1)
    else (batch, total)

/-- Function `LevelDBStorage::commitTableDataRange`: the batch slot is passed in and handed
back (`none` is the null pointer), with the count the call returns. -/
def commitTableDataRange (batch : Option WriteBatch) (tableData : TableData) (hash : h256)
    (num : Int) (from_ to_ : Nat) : Option WriteBatch × Nat :=
  if from_ ≥ to_ then (batch, 0)
  else
    let r := commitRangeLoop tableData.tableName hash num (tableData.data.drop from_)
      from_ to_ [] 0
    (some r.1, r.2)

/-- The constant of line 146. -/
def c_commitTableDataRangeEachThread : Nat := 128

/-- The parallel loop of `commit` (lines 169-177), its iterations run in the order of
`schedule`: iteration `j` hands slot `j` of `batches` to `commitTableDataRange` and adds the
count to `total`. -/
def runWorkers (tableData : TableData) (hash : h256) (num : Int) (schedule : List Nat)
    (batches : List (Option WriteBatch)) (total : Nat) : List (Option WriteBatch) × Nat :=
  schedule.foldl
    (fun st j =>
      let totalSize := tableData.data.length
      let from_ := c_commitTableDataRangeEachThread * j
      let to_ := min (c_commitTableDataRangeEachThread * (j + 1)) totalSize
      let r := commitTableDataRange (st.1.getD j none) tableData hash num from_ to_
      (st.1.set j r.1, st.2 + r.2))
    (batches, total)

/-- The merge loop of `commit` (lines 183-186): every slot is dereferenced and appended to
`totalBatch`; `none` when a null slot is dereferenced. -/
def mergeBatches : List (Option WriteBatch) → WriteBatch → Option WriteBatch
  | [], totalBatch => some totalBatch
  | none :: _, _ => none
  | some b :: rest, totalBatch => mergeBatches rest (totalBatch.append b)

/-- The loop over the tables in the try block of `commit` (lines 160-204) with the running
`total`. -/
def commitTables (hash : h256) (num : Int) :
    List TableData → BasicLevelDB → Nat → Outcome Nat × BasicLevelDB
  | [], db, total => (.returned total, db)
  | tableData :: rest, db, total =>
    let totalSize := tableData.data.length
    let batchesSize := (totalSize + c_commitTableDataRangeEachThread - 1) /
      c_commitTableDataRangeEachThread
    let r := runWorkers tableData hash num (List.range batchesSize)
      (List.replicate batchesSize none) total
    match mergeBatches r.1 [] with
    | none => (.undefined, db)
    | some totalBatch =>
      let w := db.Write false totalBatch
      if !w.1.ok then
        (.thrown (.storage ⟨-1, "Commit leveldb exception:" ++ w.1.ToString⟩), w.2)
      else commitTables hash num rest w.2 r.2

/-- Function `LevelDBStorage::commit(hash, num, datas, h256 const&)`, the try block (lines
152-210) under its handler; its last argument is unnamed and unused. -/
def commit (hash : h256) (num : Int) (datas : List TableData) (db : BasicLevelDB) :
    Outcome Nat × BasicLevelDB :=
  let r := commitTables hash num datas db 0
  (catchAndRethrow r.1, r.2)

/-! ## Reference descriptions used in the statements -/

/-- The puts the keys of a slice give, in order: one per key with non-empty `Entries`. -/
def slicePuts (tableName : String) (hash : h256) (num : Int)
    (slice : List (String × Entries)) : WriteBatch :=
  (slice.filter (fun kv => kv.2.length ≠ 0)).map
    (fun kv => (tableName ++ "_" ++ kv.1, encodeEntries hash num kv.2))

/-- The number of keys of a slice with non-empty `Entries`. -/
def sliceCount (slice : List (String × Entries)) : Nat :=
  (slice.filter (fun kv => kv.2.length ≠ 0)).length

/-- The puts a batch slot holds; a null slot holds none. -/
def slotPuts : Option WriteBatch → WriteBatch
  | none => []
  | some b => b

/-- The (table name, row key) pairs of a commit whose `Entries` is non-empty, with
repetitions. -/
def nonEmptyPairs (datas : List TableData) : List (String × String) :=
  (datas.map (fun t =>
    (t.data.filter (fun kv => kv.2.length ≠ 0)).map (fun kv => (t.tableName, kv.1)))).flatten

/-- The batch `commit` writes for one table: the batches of its chunks, in chunk-index
order, one after the other. -/
def tableBatch (hash : h256) (num : Int) (tableData : TableData) : WriteBatch :=
  ((List.range ((tableData.data.length + c_commitTableDataRangeEachThread - 1) /
      c_commitTableDataRangeEachThread)).map
    (fun j => slotPuts (commitTableDataRange none tableData hash num
      (c_commitTableDataRangeEachThread * j)
      (min (c_commitTableDataRangeEachThread * (j + 1)) tableData.data.length)).1)).flatten

/-- The number of row objects in the records of a batch. -/
def batchRows (batch : WriteBatch) : Nat :=
  (batch.map (fun put => put.2.values.length)).sum

/-! ## Concrete inputs -/

/-- A status encoding: the status field is `_status_`, its value "1" is the hidden status,
any other value and a missing field are `NORMAL`. -/
def sampleCodec : StatusCodec :=
  ⟨"_status_", fun o => if o = some "1" then Entry.Status.DELETED else Entry.Status.NORMAL⟩

/-- An engine that holds no record and fails no operation. -/
def emptyDB : BasicLevelDB := ⟨fun _ => none, fun _ => none, fun _ => none, [], []⟩

/-- An engine that holds no record and fails every lookup and every write. -/
def faultyDB : BasicLevelDB :=
  ⟨fun _ => none, fun _ => some "IO error: lookup", fun _ => some "IO error: write", [], []⟩

/-- The block hash 0xaa00...00. -/
def sampleHash : h256 := ⟨0xaa * 2 ^ 248⟩

/-- Two rows of one key: a visible one and a hidden one. -/
def sampleRows : Entries :=
  [⟨[("id", "1"), ("name", "a")], true⟩, ⟨[("id", "2"), ("_status_", "1")], true⟩]

/-- The table of the example of the specification, with the rows above under key `k1`. -/
def sampleTable : TableData := ⟨"t_test", [("k1", sampleRows)]⟩

/-- A record committed earlier, at block 1. -/
def oldRecord : Record :=
  ⟨[[("id", .str "0"), ("_hash_", .str "00"), ("_num_", .int 1)]]⟩

/-- An engine that holds `oldRecord` under the engine key `a_b_c` and fails no operation. -/
def aliasDB : BasicLevelDB :=
  ⟨fun k => if k = "a_b_c" then some oldRecord else none, fun _ => none, fun _ => none, [], []⟩

/-- A commit of two tables: table `a_b` has the key `c` with empty `Entries`, table `a` has
the key `b_c` with one row. -/
def aliasDatas : List TableData :=
  [⟨"a_b", [("c", [])]⟩, ⟨"a", [("b_c", [⟨[("id", "1")], true⟩])]⟩]

/-- A table with three row keys, the second with empty `Entries`. -/
def threeKeyTable : TableData :=
  ⟨"t_test", [("k1", sampleRows), ("k2", []), ("k3", [⟨[], true⟩])]⟩

/-- An engine that holds no record and fails the second write issued on it, nothing else. -/
def secondWriteFailsDB : BasicLevelDB :=
  ⟨fun _ => none, fun _ => none, fun n => if n = 1 then some "IO error: write" else none,
    [], []⟩

/-- A commit of three tables. -/
def threeTables : List TableData :=
  [sampleTable, ⟨"u", [("k", sampleRows)]⟩, ⟨"v", [("k", sampleRows)]⟩]

/-- A table of 129 row keys, which `commit` encodes in two chunks. -/
def bigTable : TableData :=
  ⟨"t_big", (List.range 129).map (fun i => (toString i, sampleRows))⟩

/-! ## Lemmas on maps -/

theorem mapGet_mapSet_same {β : Type} (m : List (String × β)) (name : String) (value : β) :
    mapGet (mapSet m name value) name = some value := by
  induction m with
  | nil => simp [mapSet, mapGet]
  | cons b rest ih =>
    obtain ⟨n, v⟩ := b
    by_cases h : n = name
    · simp [mapSet, mapGet, h]
    · simp [mapSet, mapGet, h, ih]

theorem mapGet_mapSet_other {β : Type} (m : List (String × β)) (name other : String)
    (value : β) (h : name ≠ other) :
    mapGet (mapSet m name value) other = mapGet m other := by
  induction m with
  | nil => simp [mapSet, mapGet, h]
  | cons b rest ih =>
    obtain ⟨n, v⟩ := b
    by_cases hn : n = name
    · subst hn
      simp [mapSet, mapGet, h]
    · by_cases ho : n = other
      · subst ho
        simp [mapSet, mapGet, hn]
      · simp [mapSet, mapGet, hn, ho, ih]

theorem mapSet_fresh {β : Type} (m : List (String × β)) (name : String) (value : β)
    (h : name ∉ m.map Prod.fst) : mapSet m name value = m ++ [(name, value)] := by
  induction m with
  | nil => simp [mapSet]
  | cons b rest ih =>
    obtain ⟨n, v⟩ := b
    simp only [List.map_cons, List.mem_cons, not_or] at h
    have hn : ¬ n = name := fun e => h.1 e.symm
    simp [mapSet, hn, ih h.2]

theorem mapSet_mapValues {β γ : Type} (f : β → γ) (m : List (String × β)) (name : String)
    (value : β) :
    (mapSet m name value).map (fun b => (b.1, f b.2)) =
      mapSet (m.map (fun b => (b.1, f b.2))) name (f value) := by
  induction m with
  | nil => simp [mapSet]
  | cons b rest ih =>
    obtain ⟨n, v⟩ := b
    by_cases hn : n = name
    · simp [mapSet, hn]
    · simp [mapSet, hn, ih]

theorem mapGet_mapValues {β γ : Type} (f : β → γ) (m : List (String × β)) (name : String) :
    mapGet (m.map (fun b => (b.1, f b.2))) name = (mapGet m name).map f := by
  induction m with
  | nil => simp [mapGet]
  | cons b rest ih =>
    obtain ⟨n, v⟩ := b
    by_cases hn : n = name
    · simp [mapGet, hn]
    · simp [mapGet, hn, ih]

/-- Setting the bindings of a well-formed map one after the other rebuilds the map. -/
theorem foldl_mapSet_rebuild {β γ : Type} (f : β → γ) (m : List (String × β))
    (acc : List (String × γ)) (hm : NodupNames m)
    (hacc : ∀ name ∈ m.map Prod.fst, name ∉ acc.map Prod.fst) :
    m.foldl (fun v b => mapSet v b.1 (f b.2)) acc = acc ++ m.map (fun b => (b.1, f b.2)) := by
  induction m generalizing acc with
  | nil => simp
  | cons b rest ih =>
    obtain ⟨n, v⟩ := b
    simp only [NodupNames, List.map_cons, List.nodup_cons] at hm
    have hfresh : n ∉ acc.map Prod.fst := hacc n (by simp)
    simp only [List.foldl_cons, List.map_cons]
    rw [mapSet_fresh acc n (f v) hfresh, ih (acc ++ [(n, f v)]) hm.2]
    · simp
    · intro name hname
      simp only [List.map_append, List.map_cons, List.map_nil, List.mem_append,
        List.mem_singleton, not_or]
      refine ⟨hacc name (by simp [hname]), ?_⟩
      intro e
      subst e
      exact hm.1 hname

/-! ## Lemmas on the row codec -/

theorem encodeRow_eq (hash : h256) (num : Int) (row : Entry) (h : NodupNames row.fields) :
    encodeRow hash num row =
      mapSet (mapSet (row.fields.map (fun b => (b.1, JsonScalar.str b.2))) "_hash_"
        (.str hash.hex)) "_num_" (.int num) := by
  unfold encodeRow
  rw [foldl_mapSet_rebuild JsonScalar.str row.fields [] h (by simp)]
  simp

theorem encodeEntries_values (hash : h256) (num : Int) (entries : Entries) :
    encodeEntries hash num entries = ⟨entries.map (encodeRow hash num)⟩ := by
  have key : ∀ (es : Entries) (acc : Record),
      es.foldl (fun entry row => (⟨entry.values ++ [encodeRow hash num row]⟩ : Record)) acc =
        ⟨acc.values ++ es.map (encodeRow hash num)⟩ := by
    intro es
    induction es with
    | nil => intro acc; simp
    | cons row rest ih => intro acc; simp [ih]
  simpa [encodeEntries] using key entries ⟨[]⟩

theorem decodeRow_fields (obj : JsonObject) (e : Entry) :
    (obj.foldl (fun entry member => entry.setField member.1 member.2.asString) e).fields =
      obj.foldl (fun v member => mapSet v member.1 member.2.asString) e.fields := by
  induction obj generalizing e with
  | nil => rfl
  | cons member rest ih =>
    simp only [List.foldl_cons]
    rw [ih]
    rfl

theorem decodeRow_wf (obj : JsonObject) (h : NodupNames obj) :
    (decodeRow obj).fields = obj.map (fun member => (member.1, member.2.asString)) := by
  unfold decodeRow
  rw [decodeRow_fields, foldl_mapSet_rebuild JsonScalar.asString obj _ h (by simp [Entry.new])]
  simp [Entry.new]

theorem decodeRecord_eq (codec : StatusCodec) (valueJson : Record) :
    decodeRecord codec valueJson =
      (valueJson.values.filter
        (fun obj => (decodeRow obj).getStatus codec = Entry.Status.NORMAL)).map
        (fun obj => (decodeRow obj).setDirty false) := by
  have key : ∀ (objs : List JsonObject) (acc : Entries),
      objs.foldl
        (fun entries obj =>
          if (decodeRow obj).getStatus codec = Entry.Status.NORMAL then
            entries ++ [(decodeRow obj).setDirty false]
          else entries) acc =
        acc ++ (objs.filter
          (fun obj => (decodeRow obj).getStatus codec = Entry.Status.NORMAL)).map
          (fun obj => (decodeRow obj).setDirty false) := by
    intro objs
    induction objs with
    | nil => intro acc; simp
    | cons obj rest ih =>
      intro acc
      by_cases hs : (decodeRow obj).getStatus codec = Entry.Status.NORMAL
      · simp [hs, ih]
      · simp [hs, ih]
  simpa [decodeRecord] using key valueJson.values []

/-! ## Lemmas on the chunk worker -/

theorem slicePuts_append (tableName : String) (hash : h256) (num : Int)
    (a b : List (String × Entries)) :
    slicePuts tableName hash num (a ++ b) =
      slicePuts tableName hash num a ++ slicePuts tableName hash num b := by
  simp [slicePuts]

theorem sliceCount_append (a b : List (String × Entries)) :
    sliceCount (a ++ b) = sliceCount a + sliceCount b := by
  simp [sliceCount]

theorem commitRangeLoop_eq (tableName : String) (hash : h256) (num : Int)
    (l : List (String × Entries)) (from_ to_ : Nat) (batch : WriteBatch) (total : Nat) :
    commitRangeLoop tableName hash num l from_ to_ batch total =
      (batch ++ slicePuts tableName hash num (l.take (to_ - from_)),
        total + sliceCount (l.take (to_ - from_))) := by
  induction l generalizing from_ batch total with
  | nil => simp [commitRangeLoop, slicePuts, sliceCount]
  | cons b rest ih =>
    obtain ⟨key, entries⟩ := b
    by_cases hlt : from_ < to_
    · have hsub : to_ - from_ = (to_ - (from_ + 1)) + 1 := by omega
      by_cases he : entries.length = 0
      · have he2 : entries = [] := List.length_eq_zero.1 he
        simp only [commitRangeLoop, hlt, he, if_true]
        rw [ih, hsub]
        simp [slicePuts, sliceCount, he2]
      · have he2 : ¬ entries = [] := fun e => he (by simp [e])
        simp only [commitRangeLoop, hlt, he, if_true, if_false]
        rw [ih, hsub]
        simp [slicePuts, sliceCount, he2, WriteBatch.insertSlice, Nat.add_assoc]
        omega
    · have hsub : to_ - from_ = 0 := by omega
      simp [commitRangeLoop, hlt, hsub, slicePuts, sliceCount]

theorem commitTableDataRange_eq (batch : Option WriteBatch) (tableData : TableData)
    (hash : h256) (num : Int) (from_ to_ : Nat) (h : from_ < to_) :
    commitTableDataRange batch tableData hash num from_ to_ =
      (some (slicePuts tableData.tableName hash num
          ((tableData.data.drop from_).take (to_ - from_))),
        sliceCount ((tableData.data.drop from_).take (to_ - from_))) := by
  have hn : ¬ from_ ≥ to_ := by omega
  simp [commitTableDataRange, hn, commitRangeLoop_eq]

theorem commitTableDataRange_puts (tableData : TableData) (hash : h256) (num : Int)
    (from_ to_ : Nat) :
    slotPuts (commitTableDataRange none tableData hash num from_ to_).1 =
        slicePuts tableData.tableName hash num
          ((tableData.data.drop from_).take (to_ - from_)) ∧
      (commitTableDataRange none tableData hash num from_ to_).2 =
        sliceCount ((tableData.data.drop from_).take (to_ - from_)) := by
  by_cases h : from_ < to_
  · simp [commitTableDataRange_eq none tableData hash num from_ to_ h, slotPuts]
  · have hge : from_ ≥ to_ := by omega
    have hsub : to_ - from_ = 0 := by omega
    simp [commitTableDataRange, hge, hsub, slotPuts, slicePuts, sliceCount]

/-! ## Lemmas on chunks -/

/-- Chunk `j` of a list cut into chunks of `c` elements. -/
theorem chunk_slice_eq {α : Type} (l : List α) (c j : Nat) :
    (l.drop (c * j)).take (min (c * (j + 1)) l.length - c * j) = (l.drop (c * j)).take c := by
  by_cases h : c * (j + 1) ≤ l.length
  · have : min (c * (j + 1)) l.length - c * j = c := by
      rw [Nat.min_eq_left h, Nat.mul_succ]; omega
    rw [this]
  · have hmin : min (c * (j + 1)) l.length = l.length := Nat.min_eq_right (by omega)
    rw [hmin]
    have hlen : (l.drop (c * j)).length = l.length - c * j := by simp
    rw [List.take_of_length_le (by omega), List.take_of_length_le]
    rw [hlen, Nat.mul_succ] at *
    omega

theorem chunks_join_take {α : Type} (l : List α) (c k : Nat) :
    ((List.range k).map (fun j => (l.drop (c * j)).take c)).flatten = l.take (c * k) := by
  induction k with
  | zero => simp
  | succ k ih =>
    rw [List.range_succ, List.map_append, List.flatten_append, ih]
    simp only [List.map_cons, List.map_nil, List.flatten_cons, List.flatten_nil, List.append_nil]
    rw [Nat.mul_succ, List.take_add]

theorem chunk_count_covers (n c : Nat) (hc : 1 ≤ c) : n ≤ c * ((n + c - 1) / c) := by
  have h1 := Nat.div_add_mod (n + c - 1) c
  have h2 := Nat.mod_lt (n + c - 1) (show c > 0 by omega)
  omega

theorem chunks_join {α : Type} (l : List α) (c : Nat) (hc : 1 ≤ c) :
    ((List.range ((l.length + c - 1) / c)).map
      (fun j => (l.drop (c * j)).take (min (c * (j + 1)) l.length - c * j))).flatten = l := by
  have h : (fun j => (l.drop (c * j)).take (min (c * (j + 1)) l.length - c * j)) =
      (fun j => (l.drop (c * j)).take c) := by
    funext j
    exact chunk_slice_eq l c j
  rw [h, chunks_join_take]
  exact List.take_of_length_le (chunk_count_covers l.length c hc)

theorem chunk_range_nonempty (n c j : Nat) (hc : 1 ≤ c) (hj : j < (n + c - 1) / c) :
    c * j < min (c * (j + 1)) n := by
  have h1 : c * j < n := by
    by_contra hcon
    have hle : n + c - 1 < c * (j + 1) := by rw [Nat.mul_succ]; omega
    have : (n + c - 1) / c < j + 1 := (Nat.div_lt_iff_lt_mul (by omega)).2 (by
      rw [Nat.mul_comm] at hle; exact hle)
    omega
  have h2 : c * j < c * (j + 1) := by rw [Nat.mul_succ]; omega
  exact Nat.lt_min.2 ⟨h2, h1⟩

theorem slicePuts_join (tableName : String) (hash : h256) (num : Int)
    (ls : List (List (String × Entries))) :
    slicePuts tableName hash num ls.flatten = (ls.map (slicePuts tableName hash num)).flatten := by
  induction ls with
  | nil => simp [slicePuts]
  | cons a rest ih => simp [slicePuts_append, ih]

theorem sliceCount_join (ls : List (List (String × Entries))) :
    sliceCount ls.flatten = (ls.map sliceCount).sum := by
  induction ls with
  | nil => simp [sliceCount]
  | cons a rest ih => simp [sliceCount_append, ih]

theorem mergeBatches_some (bs : List WriteBatch) (acc : WriteBatch) :
    mergeBatches (bs.map some) acc = some (acc ++ bs.flatten) := by
  induction bs generalizing acc with
  | nil => simp [mergeBatches]
  | cons b rest ih => simp [mergeBatches, ih, WriteBatch.append]

/-- The chunks of a table for any chunk size: their batches appended in chunk order and
their counts added up. -/
theorem chunks_outcome (tableData : TableData) (hash : h256) (num : Int) (c : Nat)
    (hc : 1 ≤ c) :
    mergeBatches ((List.range ((tableData.data.length + c - 1) / c)).map (fun j =>
        (commitTableDataRange none tableData hash num (c * j)
          (min (c * (j + 1)) tableData.data.length)).1)) [] =
        some (slicePuts tableData.tableName hash num tableData.data) ∧
      ((List.range ((tableData.data.length + c - 1) / c)).map (fun j =>
        (commitTableDataRange none tableData hash num (c * j)
          (min (c * (j + 1)) tableData.data.length)).2)).sum = sliceCount tableData.data := by
  have hslot : ∀ j ∈ List.range ((tableData.data.length + c - 1) / c),
      commitTableDataRange none tableData hash num (c * j)
          (min (c * (j + 1)) tableData.data.length) =
        (some (slicePuts tableData.tableName hash num
            ((tableData.data.drop (c * j)).take
              (min (c * (j + 1)) tableData.data.length - c * j))),
          sliceCount ((tableData.data.drop (c * j)).take
              (min (c * (j + 1)) tableData.data.length - c * j))) := by
    intro j hj
    exact commitTableDataRange_eq none tableData hash num _ _
      (chunk_range_nonempty _ _ j hc (List.mem_range.1 hj))
  have hjoin := chunks_join tableData.data c hc
  have h1 : (List.range ((tableData.data.length + c - 1) / c)).map (fun j =>
        (commitTableDataRange none tableData hash num (c * j)
          (min (c * (j + 1)) tableData.data.length)).1) =
      (((List.range ((tableData.data.length + c - 1) / c)).map (fun j =>
        (tableData.data.drop (c * j)).take
          (min (c * (j + 1)) tableData.data.length - c * j))).map
        (slicePuts tableData.tableName hash num)).map some := by
    rw [List.map_map, List.map_map]
    exact List.map_congr_left (fun j hj => by rw [hslot j hj]; rfl)
  have h2 : (List.range ((tableData.data.length + c - 1) / c)).map (fun j =>
        (commitTableDataRange none tableData hash num (c * j)
          (min (c * (j + 1)) tableData.data.length)).2) =
      ((List.range ((tableData.data.length + c - 1) / c)).map (fun j =>
        (tableData.data.drop (c * j)).take
          (min (c * (j + 1)) tableData.data.length - c * j))).map sliceCount := by
    rw [List.map_map]
    exact List.map_congr_left (fun j hj => by rw [hslot j hj]; rfl)
  rw [h1, h2]
  constructor
  · rw [mergeBatches_some, List.nil_append, ← slicePuts_join, hjoin]
  · rw [← sliceCount_join, hjoin]

/-! ## Lemmas on the commit pipeline -/

theorem runWorkers_range (tableData : TableData) (hash : h256) (num : Int) (size k total : Nat)
    (hk : k ≤ size) :
    runWorkers tableData hash num (List.range k) (List.replicate size none) total =
      ((List.range k).map (fun j =>
          (commitTableDataRange none tableData hash num (c_commitTableDataRangeEachThread * j)
            (min (c_commitTableDataRangeEachThread * (j + 1)) tableData.data.length)).1) ++
          List.replicate (size - k) none,
        total + ((List.range k).map (fun j =>
          (commitTableDataRange none tableData hash num (c_commitTableDataRangeEachThread * j)
            (min (c_commitTableDataRangeEachThread * (j + 1)) tableData.data.length)).2)).sum) := by
  induction k with
  | zero => simp [runWorkers]
  | succ k ih =>
    have ih2 := ih (by omega)
    simp only [runWorkers] at ih2 ⊢
    rw [List.range_succ, List.foldl_append, ih2]
    have hsub : size - k = (size - (k + 1)) + 1 := by omega
    simp only [List.foldl_cons, List.foldl_nil]
    have hget : ((List.range k).map (fun j =>
          (commitTableDataRange none tableData hash num (c_commitTableDataRangeEachThread * j)
            (min (c_commitTableDataRangeEachThread * (j + 1)) tableData.data.length)).1) ++
          List.replicate (size - k) none).getD k none = none := by
      rw [List.getD_append_right _ _ _ _ (by simp)]
      simp [hsub, List.replicate_succ]
    rw [hget, List.set_append_right _ _ (by simp), hsub, List.replicate_succ]
    simp [Nat.add_assoc]

/-- What one table contributes: the batch that is written and the keys that are counted. -/
theorem table_step (tableData : TableData) (hash : h256) (num : Int) (total : Nat) :
    let size := (tableData.data.length + c_commitTableDataRangeEachThread - 1) /
      c_commitTableDataRangeEachThread
    let r := runWorkers tableData hash num (List.range size) (List.replicate size none) total
    mergeBatches r.1 [] = some (slicePuts tableData.tableName hash num tableData.data) ∧
      r.2 = total + sliceCount tableData.data := by
  intro size r
  have hr : r = _ := runWorkers_range tableData hash num size size total (Nat.le_refl _)
  have hch := chunks_outcome tableData hash num c_commitTableDataRangeEachThread (by decide)
  rw [hr]
  simp only [Nat.sub_self, List.replicate_zero, List.append_nil]
  exact ⟨hch.1, by rw [hch.2]⟩

theorem commitTables_nil (hash : h256) (num : Int) (db : BasicLevelDB) (total : Nat) :
    commitTables hash num [] db total = (.returned total, db) := rfl

theorem commitTables_cons (hash : h256) (num : Int) (tableData : TableData)
    (rest : List TableData) (db : BasicLevelDB) (total : Nat) :
    commitTables hash num (tableData :: rest) db total =
      if !(db.Write false (slicePuts tableData.tableName hash num tableData.data)).1.ok then
        (.thrown (.storage ⟨-1, "Commit leveldb exception:" ++
          (db.Write false
            (slicePuts tableData.tableName hash num tableData.data)).1.ToString⟩),
          (db.Write false (slicePuts tableData.tableName hash num tableData.data)).2)
      else
        commitTables hash num rest
          (db.Write false (slicePuts tableData.tableName hash num tableData.data)).2
          (total + sliceCount tableData.data) := by
  have h := table_step tableData hash num total
  simp only at h
  simp only [commitTables, h.1, h.2]

/-- The handler of `commit` leaves the engine as the try block left it. -/
theorem commit_engine (hash : h256) (num : Int) (datas : List TableData) (db : BasicLevelDB) :
    (commit hash num datas db).2 = (commitTables hash num datas db 0).2 := rfl

/-- The handler of `commit` passes a returned count on. -/
theorem commit_returned_iff (hash : h256) (num : Int) (datas : List TableData)
    (db : BasicLevelDB) (count : Nat) :
    (commit hash num datas db).1 = .returned count ↔
      (commitTables hash num datas db 0).1 = .returned count := by
  unfold commit
  simp only
  cases h : (commitTables hash num datas db 0).1 <;> simp [catchAndRethrow]

/-- The handler of `commit` turns any exception of the try block into the `std::exception`
copy. -/
theorem commit_thrown (hash : h256) (num : Int) (datas : List TableData) (db : BasicLevelDB)
    (h : ∃ e, (commitTables hash num datas db 0).1 = .thrown e) :
    (commit hash num datas db).1 = .thrown Exception.stdException := by
  obtain ⟨e, he⟩ := h
  unfold commit
  simp only [he, catchAndRethrow]

/-- The handler of `commit` brings in no undefined outcome. -/
theorem commit_undefined_iff (hash : h256) (num : Int) (datas : List TableData)
    (db : BasicLevelDB) :
    (commit hash num datas db).1 = .undefined ↔
      (commitTables hash num datas db 0).1 = .undefined := by
  unfold commit
  simp only
  cases h : (commitTables hash num datas db 0).1 <;> simp [catchAndRethrow]

/-! ## Lemmas on the engine -/

theorem applyBatch_untouched (batch : WriteBatch) (data : String → Option Record)
    (key : String) (h : key ∉ batch.map Prod.fst) : applyBatch batch data key = data key := by
  induction batch generalizing data with
  | nil => rfl
  | cons put rest ih =>
    simp only [List.map_cons, List.mem_cons, not_or] at h
    simp only [applyBatch, List.foldl_cons] at ih ⊢
    rw [ih _ h.2]
    simp [h.1]

theorem Get_status (db : BasicLevelDB) (key : String) :
    (db.Get key).1 =
      match db.getFault key with
      | some msg => DBStatus.Fault msg
      | none => if (db.data key).isSome then DBStatus.OK else DBStatus.NotFound := by
  unfold BasicLevelDB.Get
  cases db.getFault key with
  | some msg => rfl
  | none => cases db.data key <;> rfl

theorem Get_found (db : BasicLevelDB) (key : String) (value : Record)
    (hf : db.getFault key = none) (hd : db.data key = some value) :
    (db.Get key).1 = DBStatus.OK ∧ (db.Get key).2.1 = value := by
  simp [BasicLevelDB.Get, hf, hd]

theorem Get_log (db : BasicLevelDB) (key : String) :
    (db.Get key).2.2.gets = db.gets ++ [key] := by
  unfold BasicLevelDB.Get
  cases db.getFault key with
  | some msg => rfl
  | none => cases db.data key <;> rfl

theorem Write_ok_iff (db : BasicLevelDB) (sync : Bool) (batch : WriteBatch) :
    (db.Write sync batch).1.ok = true ↔ db.writeFault db.writes.length = none := by
  unfold BasicLevelDB.Write
  cases db.writeFault db.writes.length <;> simp [DBStatus.ok]

theorem Write_faults (db : BasicLevelDB) (sync : Bool) (batch : WriteBatch) :
    (db.Write sync batch).2.writeFault = db.writeFault ∧
      (db.Write sync batch).2.getFault = db.getFault ∧
      (db.Write sync batch).2.writes.length = db.writes.length + 1 := by
  unfold BasicLevelDB.Write
  cases db.writeFault db.writes.length <;> simp

theorem Write_data_ok (db : BasicLevelDB) (sync : Bool) (batch : WriteBatch)
    (h : db.writeFault db.writes.length = none) :
    (db.Write sync batch).2.data = applyBatch batch db.data := by
  simp [BasicLevelDB.Write, h]

theorem Write_data_untouched (db : BasicLevelDB) (sync : Bool) (batch : WriteBatch)
    (key : String) (h : key ∉ batch.map Prod.fst) :
    (db.Write sync batch).2.data key = db.data key := by
  unfold BasicLevelDB.Write
  cases db.writeFault db.writes.length with
  | some msg => rfl
  | none => exact applyBatch_untouched batch db.data key h

/-! ## Lemmas on select -/

theorem entryKey_eq (table key : String) : (table.append "_").append key = table ++ "_" ++ key :=
  rfl

theorem select_found (codec : StatusCodec) (db : BasicLevelDB) (table key : String)
    (value : Record) (hf : db.getFault (table ++ "_" ++ key) = none)
    (hd : db.data (table ++ "_" ++ key) = some value) :
    (select codec db table key).1 = .returned (decodeRecord codec value) := by
  simp [select, selectTry, catchAndRethrow, entryKey_eq, BasicLevelDB.Get, hf, hd, DBStatus.ok,
    DBStatus.IsNotFound]

/-! ## Lemmas on the round trip of one row -/

theorem mapSet_names_of_mem {β : Type} (m : List (String × β)) (name : String) (value : β)
    (h : name ∈ m.map Prod.fst) : (mapSet m name value).map Prod.fst = m.map Prod.fst := by
  induction m with
  | nil => simp at h
  | cons b rest ih =>
    obtain ⟨n, v⟩ := b
    by_cases hn : n = name
    · simp [mapSet, hn]
    · have hrest : name ∈ rest.map Prod.fst := by
        simp only [List.map_cons, List.mem_cons] at h
        rcases h with h | h
        · exact absurd h.symm hn
        · exact h
      simp [mapSet, hn, ih hrest]

theorem NodupNames_mapSet {β : Type} (m : List (String × β)) (name : String) (value : β)
    (h : NodupNames m) : NodupNames (mapSet m name value) := by
  unfold NodupNames at *
  by_cases hmem : name ∈ m.map Prod.fst
  · rw [mapSet_names_of_mem m name value hmem]
    exact h
  · rw [mapSet_fresh m name value hmem, List.map_append]
    simp only [List.map_cons, List.map_nil]
    exact List.Nodup.append h (List.nodup_singleton _) (by
      intro a ha hb
      simp only [List.mem_singleton] at hb
      subst hb
      exact hmem ha)

theorem NodupNames_mapValues {β γ : Type} (f : β → γ) (m : List (String × β))
    (h : NodupNames m) : NodupNames (m.map (fun b => (b.1, f b.2))) := by
  unfold NodupNames at *
  rw [List.map_map]
  exact h

theorem encodeRow_wf (hash : h256) (num : Int) (row : Entry) (h : NodupNames row.fields) :
    NodupNames (encodeRow hash num row) := by
  rw [encodeRow_eq hash num row h]
  exact NodupNames_mapSet _ _ _ (NodupNames_mapSet _ _ _ (NodupNames_mapValues _ _ h))

/-- Decoding the object a row was encoded to gives the fields of the row with the two
provenance fields set. -/
theorem roundtrip_row (hash : h256) (num : Int) (row : Entry) (h : NodupNames row.fields) :
    (decodeRow (encodeRow hash num row)).fields =
      mapSet (mapSet row.fields "_hash_" hash.hex) "_num_" (toString num) := by
  rw [decodeRow_wf _ (encodeRow_wf hash num row h), encodeRow_eq hash num row h,
    mapSet_mapValues, mapSet_mapValues, List.map_map]
  have hid : ((fun b : String × JsonScalar => (b.1, b.2.asString)) ∘
      fun b : String × String => (b.1, JsonScalar.str b.2)) = id := by
    funext b
    rfl
  rw [hid, List.map_id]
  rfl

theorem roundtrip_status (codec : StatusCodec) (hash : h256) (num : Int) (row : Entry)
    (h : NodupNames row.fields) (hst : codec.field ≠ "_hash_" ∧ codec.field ≠ "_num_") :
    (decodeRow (encodeRow hash num row)).getStatus codec = row.getStatus codec := by
  unfold Entry.getStatus
  rw [roundtrip_row hash num row h,
    mapGet_mapSet_other _ _ _ _ (Ne.symm hst.2), mapGet_mapSet_other _ _ _ _ (Ne.symm hst.1)]

/-! ## Lemmas on the outcome of commit -/

theorem commitTables_success (hash : h256) (num : Int) (datas : List TableData)
    (db : BasicLevelDB) (total : Nat)
    (hok : ∀ i, i < datas.length → db.writeFault (db.writes.length + i) = none) :
    (commitTables hash num datas db total).1 =
      .returned (total + (datas.map (fun t => sliceCount t.data)).sum) := by
  induction datas generalizing db total with
  | nil => simp [commitTables]
  | cons t rest ih =>
    rw [commitTables_cons]
    have h0 : db.writeFault db.writes.length = none := by simpa using hok 0 (by simp)
    have hw := (Write_ok_iff db false (slicePuts t.tableName hash num t.data)).2 h0
    have hf := Write_faults db false (slicePuts t.tableName hash num t.data)
    simp only [hw, Bool.not_true, Bool.false_eq_true, if_false]
    rw [ih]
    · simp [Nat.add_assoc]
    · intro i hi
      rw [hf.1, hf.2.2]
      have := hok (i + 1) (by simpa using hi)
      rw [← this]
      congr 1
      omega

theorem commitTables_failure (hash : h256) (num : Int) (datas : List TableData)
    (db : BasicLevelDB) (total : Nat)
    (hbad : ∃ i, i < datas.length ∧ db.writeFault (db.writes.length + i) ≠ none) :
    ∃ e, (commitTables hash num datas db total).1 = .thrown e := by
  induction datas generalizing db total with
  | nil =>
    obtain ⟨i, hi, _⟩ := hbad
    simp at hi
  | cons t rest ih =>
    rw [commitTables_cons]
    have hf := Write_faults db false (slicePuts t.tableName hash num t.data)
    by_cases h0 : db.writeFault db.writes.length = none
    · have hw := (Write_ok_iff db false (slicePuts t.tableName hash num t.data)).2 h0
      simp only [hw, Bool.not_true, Bool.false_eq_true, if_false]
      apply ih
      obtain ⟨i, hi, hne⟩ := hbad
      cases i with
      | zero => exact absurd h0 (by simpa using hne)
      | succ i =>
        refine ⟨i, by simpa using hi, ?_⟩
        rw [hf.1, hf.2.2]
        have e : db.writes.length + 1 + i = db.writes.length + (i + 1) := by omega
        rw [e]
        exact hne
    · have hw : (db.Write false (slicePuts t.tableName hash num t.data)).1.ok = false := by
        cases hok : (db.Write false (slicePuts t.tableName hash num t.data)).1.ok with
        | false => rfl
        | true =>
          exact absurd ((Write_ok_iff db false (slicePuts t.tableName hash num t.data)).1 hok) h0
      simp only [hw, Bool.not_false, if_true]
      exact ⟨_, rfl⟩

/-- Frame of the commit loop: an engine key no put is made on keeps its record. -/
theorem commitTables_untouched (hash : h256) (num : Int) (datas : List TableData)
    (db : BasicLevelDB) (total : Nat) (entryKey : String)
    (hno : ∀ t ∈ datas, ∀ kv ∈ t.data, kv.2 ≠ [] → t.tableName ++ "_" ++ kv.1 ≠ entryKey) :
    (commitTables hash num datas db total).2.data entryKey = db.data entryKey := by
  induction datas generalizing db total with
  | nil => rfl
  | cons t rest ih =>
    rw [commitTables_cons]
    have hput : entryKey ∉ (slicePuts t.tableName hash num t.data).map Prod.fst := by
      intro hmem
      simp only [slicePuts, List.map_map, List.mem_map, List.mem_filter] at hmem
      obtain ⟨kv, ⟨hkv, hne⟩, heq⟩ := hmem
      have hne2 : kv.2 ≠ [] := by
        intro e
        simp [e] at hne
      exact hno t (by simp) kv hkv hne2 heq
    have hw := Write_data_untouched db false _ entryKey hput
    split
    · exact hw
    · rw [ih _ _ (fun t2 ht2 => hno t2 (by simp [ht2])), hw]

theorem commit_single_key (hash : h256) (num : Int) (db : BasicLevelDB) (table key : String)
    (entries : Entries) (hne : entries ≠ [])
    (hw : db.writeFault db.writes.length = none) :
    (commit hash num [⟨table, [(key, entries)]⟩] db).2.data (table ++ "_" ++ key) =
      some (encodeEntries hash num entries) := by
  have hput : slicePuts table hash num [(key, entries)] =
      [(table ++ "_" ++ key, encodeEntries hash num entries)] := by
    simp [slicePuts, hne]
  have hok := (Write_ok_iff db false (slicePuts table hash num [(key, entries)])).2 hw
  rw [commit_engine, commitTables_cons]
  simp only [hok, Bool.not_true, Bool.false_eq_true, if_false, commitTables_nil]
  rw [Write_data_ok db false _ hw, hput]
  simp [applyBatch]

theorem commit_returned_first_write (hash : h256) (num : Int) (t : TableData)
    (rest : List TableData) (db : BasicLevelDB) (count : Nat)
    (h : (commit hash num (t :: rest) db).1 = .returned count) :
    db.writeFault db.writes.length = none := by
  by_contra hne
  obtain ⟨e, he⟩ := commitTables_failure hash num (t :: rest) db 0 ⟨0, by simp, by simpa using hne⟩
  rw [commit_returned_iff, he] at h
  cases h

theorem nonEmptyPairs_length (datas : List TableData) :
    (nonEmptyPairs datas).length = (datas.map (fun t => sliceCount t.data)).sum := by
  induction datas with
  | nil => rfl
  | cons t rest ih =>
    unfold nonEmptyPairs at ih ⊢
    simp only [List.map_cons, List.flatten_cons, List.length_append, List.sum_cons, ih]
    simp [sliceCount]

theorem nonEmptyPairs_mem_name (datas : List TableData) (p : String × String)
    (h : p ∈ nonEmptyPairs datas) : p.1 ∈ datas.map (fun t => t.tableName) := by
  simp only [nonEmptyPairs, List.mem_flatten, List.mem_map] at h
  obtain ⟨l, ⟨t, ht, rfl⟩, hp⟩ := h
  simp only [List.mem_map, List.mem_filter] at hp
  obtain ⟨kv, _, rfl⟩ := hp
  exact List.mem_map.2 ⟨t, ht, rfl⟩

theorem nonEmptyPairs_nodup (datas : List TableData)
    (hnames : (datas.map (fun t => t.tableName)).Nodup)
    (hkeys : ∀ t ∈ datas, NodupNames t.data) : (nonEmptyPairs datas).Nodup := by
  induction datas with
  | nil => simp [nonEmptyPairs]
  | cons t rest ih =>
    simp only [List.map_cons, List.nodup_cons] at hnames
    have hrest := ih hnames.2 (fun t2 ht2 => hkeys t2 (by simp [ht2]))
    have hsplit : nonEmptyPairs (t :: rest) =
        (t.data.filter (fun kv => kv.2.length ≠ 0)).map (fun kv => (t.tableName, kv.1)) ++
          nonEmptyPairs rest := by
      simp [nonEmptyPairs]
    rw [hsplit]
    have hk : NodupNames t.data := hkeys t (by simp)
    have hfirst : ((t.data.filter (fun kv => kv.2.length ≠ 0)).map
        (fun kv => (t.tableName, kv.1))).Nodup := by
      have h1 : ((t.data.filter (fun kv => kv.2.length ≠ 0)).map Prod.fst).Nodup :=
        List.Nodup.sublist (List.Sublist.map _ (List.filter_sublist _)) hk
      have h2 := List.Nodup.map (f := fun k : String => (t.tableName, k))
        (fun a b hab => by simpa using hab) h1
      rw [List.map_map] at h2
      exact h2
    refine List.Nodup.append hfirst hrest ?_
    intro p hp1 hp2
    have hname := nonEmptyPairs_mem_name rest p hp2
    simp only [List.mem_map, List.mem_filter] at hp1
    obtain ⟨kv, _, rfl⟩ := hp1
    exact hnames.1 hname

theorem select_eq (codec : StatusCodec) (db : BasicLevelDB) (table key : String) :
    select codec db table key =
      (if !(db.Get (table ++ "_" ++ key)).1.ok && !(db.Get (table ++ "_" ++ key)).1.IsNotFound
        then .thrown Exception.stdException
        else
          .returned (if !(db.Get (table ++ "_" ++ key)).1.IsNotFound then
            decodeRecord codec (db.Get (table ++ "_" ++ key)).2.1 else []),
        (db.Get (table ++ "_" ++ key)).2.2) := by
  unfold select selectTry
  simp only [entryKey_eq]
  split <;> rfl

/-- The object of a row holds every field of the row that is not a provenance field with
its value, and the two provenance fields with the hash and the number of the commit. -/
theorem encodeRow_members (hash : h256) (num : Int) (row : Entry) (h : NodupNames row.fields) :
    mapGet (encodeRow hash num row) "_hash_" = some (.str hash.hex) ∧
      mapGet (encodeRow hash num row) "_num_" = some (.int num) ∧
      ∀ name, name ≠ "_hash_" → name ≠ "_num_" →
        mapGet (encodeRow hash num row) name = (mapGet row.fields name).map JsonScalar.str := by
  rw [encodeRow_eq hash num row h]
  refine ⟨?_, ?_, ?_⟩
  · rw [mapGet_mapSet_other _ _ _ _ (by decide), mapGet_mapSet_same]
  · rw [mapGet_mapSet_same]
  · intro name h1 h2
    rw [mapGet_mapSet_other _ _ _ _ (Ne.symm h2), mapGet_mapSet_other _ _ _ _ (Ne.symm h1),
      mapGet_mapValues]

/-! ## Lemmas on a commit followed by select -/

/-- What `select` returns after a commit of one table with one key has returned. -/
theorem select_after_commit (codec : StatusCodec) (db : BasicLevelDB) (table key : String)
    (entries : Entries) (hash : h256) (num : Int) (count : Nat)
    (hne : entries ≠ [])
    (hwf : ∀ row ∈ entries, NodupNames row.fields)
    (hst : codec.field ≠ "_hash_" ∧ codec.field ≠ "_num_")
    (hcommit : (commit hash num [⟨table, [(key, entries)]⟩] db).1 = .returned count)
    (hget : (commit hash num [⟨table, [(key, entries)]⟩] db).2.getFault
      (table ++ "_" ++ key) = none) :
    (select codec (commit hash num [⟨table, [(key, entries)]⟩] db).2 table key).1 =
      .returned ((entries.filter (fun row => row.getStatus codec = Entry.Status.NORMAL)).map
        (fun row =>
          ⟨mapSet (mapSet row.fields "_hash_" hash.hex) "_num_" (toString num), false⟩)) := by
  have hw := commit_returned_first_write hash num _ _ db count hcommit
  have hdata := commit_single_key hash num db table key entries hne hw
  rw [select_found codec _ table key _ hget hdata, decodeRecord_eq, encodeEntries_values]
  simp only [List.filter_map, List.map_map]
  congr 1
  have hfil : (entries.filter ((fun obj =>
        decide ((decodeRow obj).getStatus codec = Entry.Status.NORMAL)) ∘ encodeRow hash num)) =
      entries.filter (fun row => decide (row.getStatus codec = Entry.Status.NORMAL)) := by
    apply List.filter_congr
    intro row hrow
    simp only [Function.comp_apply]
    rw [roundtrip_status codec hash num row (hwf row hrow) hst]
  rw [hfil]
  apply List.map_congr_left
  intro row hrow
  have hmem : row ∈ entries := (List.mem_filter.1 hrow).1
  simp only [Function.comp_apply, Entry.setDirty]
  rw [roundtrip_row hash num row (hwf row hmem)]

/-- The lookup of `select` depends on table and key through the engine key only. -/
theorem select_same_entryKey (codec : StatusCodec) (db : BasicLevelDB)
    (table key table2 key2 : String) (h : table ++ "_" ++ key = table2 ++ "_" ++ key2) :
    select codec db table key = select codec db table2 key2 := by
  rw [select_eq, select_eq, h]

/-! ## Lemmas on the writes of commit -/

theorem Write_log (db : BasicLevelDB) (sync : Bool) (batch : WriteBatch) :
    (db.Write sync batch).2.writes = db.writes ++ [(sync, batch)] ∧
      (db.Write sync batch).2.gets = db.gets := by
  unfold BasicLevelDB.Write
  cases db.writeFault db.writes.length <;> simp

theorem Write_data_fault (db : BasicLevelDB) (sync : Bool) (batch : WriteBatch)
    (h : db.writeFault db.writes.length ≠ none) : (db.Write sync batch).2.data = db.data := by
  unfold BasicLevelDB.Write
  cases hw : db.writeFault db.writes.length with
  | none => exact absurd hw h
  | some msg => rfl

theorem tableBatch_eq (hash : h256) (num : Int) (tableData : TableData) :
    tableBatch hash num tableData =
      slicePuts tableData.tableName hash num tableData.data := by
  unfold tableBatch
  have h : (fun j => slotPuts (commitTableDataRange none tableData hash num
        (c_commitTableDataRangeEachThread * j)
        (min (c_commitTableDataRangeEachThread * (j + 1)) tableData.data.length)).1) =
      (slicePuts tableData.tableName hash num) ∘ (fun j =>
        (tableData.data.drop (c_commitTableDataRangeEachThread * j)).take
          (min (c_commitTableDataRangeEachThread * (j + 1)) tableData.data.length -
            c_commitTableDataRangeEachThread * j)) := by
    funext j
    exact (commitTableDataRange_puts tableData hash num _ _).1
  rw [h, ← List.map_map, ← slicePuts_join,
    chunks_join tableData.data c_commitTableDataRangeEachThread (by decide)]

/-- A commit whose writes all succeed: the writes issued and the records persisted. -/
theorem commitTables_writes_ok (hash : h256) (num : Int) (datas : List TableData)
    (db : BasicLevelDB) (total : Nat)
    (hok : ∀ i, i < datas.length → db.writeFault (db.writes.length + i) = none) :
    (commitTables hash num datas db total).2.writes =
        db.writes ++ datas.map (fun t => (false, slicePuts t.tableName hash num t.data)) ∧
      (commitTables hash num datas db total).2.data =
        datas.foldl (fun d t => applyBatch (slicePuts t.tableName hash num t.data) d)
          db.data := by
  induction datas generalizing db total with
  | nil => simp [commitTables]
  | cons t rest ih =>
    rw [commitTables_cons]
    have h0 : db.writeFault db.writes.length = none := by simpa using hok 0 (by simp)
    have hw := (Write_ok_iff db false (slicePuts t.tableName hash num t.data)).2 h0
    have hf := Write_faults db false (slicePuts t.tableName hash num t.data)
    have hl := Write_log db false (slicePuts t.tableName hash num t.data)
    have hd := Write_data_ok db false (slicePuts t.tableName hash num t.data) h0
    simp only [hw, Bool.not_true, Bool.false_eq_true, if_false]
    have hrest := ih (db.Write false (slicePuts t.tableName hash num t.data)).2
      (total + sliceCount t.data) (by
        intro i hi
        rw [hf.1, hf.2.2]
        have h := hok (i + 1) (by simpa using hi)
        have e : db.writes.length + 1 + i = db.writes.length + (i + 1) := by omega
        rw [e]
        exact h)
    rw [hrest.1, hrest.2, hl.1, hd]
    simp

/-- A commit whose write of table `i` is the first to fail: the outcome, the writes issued
and the records persisted. -/
theorem commitTables_first_failure (hash : h256) (num : Int) (datas : List TableData)
    (db : BasicLevelDB) (total i : Nat) (hi : i < datas.length)
    (hok : ∀ j, j < i → db.writeFault (db.writes.length + j) = none)
    (hbad : db.writeFault (db.writes.length + i) ≠ none) :
    (∃ e, (commitTables hash num datas db total).1 = .thrown e) ∧
      (commitTables hash num datas db total).2.writes =
        db.writes ++
          (datas.take (i + 1)).map (fun t => (false, slicePuts t.tableName hash num t.data)) ∧
      (commitTables hash num datas db total).2.data =
        (datas.take i).foldl (fun d t => applyBatch (slicePuts t.tableName hash num t.data) d)
          db.data := by
  induction datas generalizing db total i with
  | nil => simp at hi
  | cons t rest ih =>
    rw [commitTables_cons]
    have hf := Write_faults db false (slicePuts t.tableName hash num t.data)
    have hl := Write_log db false (slicePuts t.tableName hash num t.data)
    cases i with
    | zero =>
      have h0 : db.writeFault db.writes.length ≠ none := by simpa using hbad
      have hw : (db.Write false (slicePuts t.tableName hash num t.data)).1.ok = false := by
        cases hq : (db.Write false (slicePuts t.tableName hash num t.data)).1.ok with
        | false => rfl
        | true =>
          exact absurd ((Write_ok_iff db false (slicePuts t.tableName hash num t.data)).1 hq) h0
      simp only [hw, Bool.not_false, if_true]
      refine ⟨⟨_, rfl⟩, ?_, ?_⟩
      · rw [hl.1]
        simp
      · rw [Write_data_fault db false _ h0]
        simp
    | succ i =>
      have h0 : db.writeFault db.writes.length = none := by simpa using hok 0 (by omega)
      have hw := (Write_ok_iff db false (slicePuts t.tableName hash num t.data)).2 h0
      have hd := Write_data_ok db false (slicePuts t.tableName hash num t.data) h0
      simp only [hw, Bool.not_true, Bool.false_eq_true, if_false]
      have hrest := ih (db.Write false (slicePuts t.tableName hash num t.data)).2
        (total + sliceCount t.data) i (by simpa using hi)
        (by
          intro j hj
          rw [hf.1, hf.2.2]
          have h := hok (j + 1) (by omega)
          have e : db.writes.length + 1 + j = db.writes.length + (j + 1) := by omega
          rw [e]
          exact h)
        (by
          rw [hf.1, hf.2.2]
          have e : db.writes.length + 1 + i = db.writes.length + (i + 1) := by omega
          rw [e]
          exact hbad)
      refine ⟨hrest.1, ?_, ?_⟩
      · rw [hrest.2.1, hl.1]
        simp
      · rw [hrest.2.2, hd]
        simp

theorem commit_returned_all_writes (hash : h256) (num : Int) (datas : List TableData)
    (db : BasicLevelDB) (count : Nat) (h : (commit hash num datas db).1 = .returned count) :
    ∀ i, i < datas.length → db.writeFault (db.writes.length + i) = none := by
  intro i hi
  by_contra hne
  obtain ⟨e, he⟩ := commitTables_failure hash num datas db 0 ⟨i, hi, hne⟩
  rw [commit_returned_iff, he] at h
  cases h

/-! ## Lemmas on the schedule of the chunk workers -/

theorem foldl_set_getElem? {α : Type} (f : Nat → α) (schedule : List Nat) (slots : List α)
    (k : Nat) :
    (schedule.foldl (fun acc j => acc.set j (f j)) slots)[k]? =
      if k ∈ schedule ∧ k < slots.length then some (f k) else slots[k]? := by
  induction schedule generalizing slots with
  | nil => simp
  | cons j rest ih =>
    simp only [List.foldl_cons]
    rw [ih (slots.set j (f j)), List.length_set, List.getElem?_set]
    by_cases hk : k < slots.length
    · by_cases hj : j = k
      · subst hj
        by_cases hr : j ∈ rest
        · simp [hr, hk]
        · simp [hr, hk]
      · have hkj : ¬ k = j := fun e => hj e.symm
        simp [hj, hkj, hk]
    · have hnone : slots[k]? = none := List.getElem?_eq_none (by omega)
      by_cases hj : j = k
      · subst hj
        simp [hk, hnone]
      · simp [hj, hk]

/-- The chunk workers in any order, every scheduled index being one of the chunks: each
writes its own slot, the counts are added up. -/
theorem runWorkers_schedule (tableData : TableData) (hash : h256) (num : Int)
    (schedule : List Nat) (batches : List (Option WriteBatch)) (total : Nat)
    (hs : ∀ j ∈ schedule, j < (tableData.data.length + c_commitTableDataRangeEachThread - 1) /
      c_commitTableDataRangeEachThread) :
    runWorkers tableData hash num schedule batches total =
      (schedule.foldl (fun acc j => acc.set j
          (commitTableDataRange none tableData hash num (c_commitTableDataRangeEachThread * j)
            (min (c_commitTableDataRangeEachThread * (j + 1)) tableData.data.length)).1)
          batches,
        total + (schedule.map (fun j =>
          (commitTableDataRange none tableData hash num (c_commitTableDataRangeEachThread * j)
            (min (c_commitTableDataRangeEachThread * (j + 1))
              tableData.data.length)).2)).sum) := by
  induction schedule generalizing batches total with
  | nil => simp [runWorkers]
  | cons j rest ih =>
    have hj := chunk_range_nonempty tableData.data.length c_commitTableDataRangeEachThread j
      (by decide) (hs j (by simp))
    have hslot : commitTableDataRange (batches.getD j none) tableData hash num
          (c_commitTableDataRangeEachThread * j)
          (min (c_commitTableDataRangeEachThread * (j + 1)) tableData.data.length) =
        commitTableDataRange none tableData hash num (c_commitTableDataRangeEachThread * j)
          (min (c_commitTableDataRangeEachThread * (j + 1)) tableData.data.length) := by
      rw [commitTableDataRange_eq _ tableData hash num _ _ hj,
        commitTableDataRange_eq none tableData hash num _ _ hj]
    have ih2 := ih (batches.set j
        (commitTableDataRange none tableData hash num (c_commitTableDataRangeEachThread * j)
          (min (c_commitTableDataRangeEachThread * (j + 1)) tableData.data.length)).1)
      (total + (commitTableDataRange none tableData hash num
          (c_commitTableDataRangeEachThread * j)
          (min (c_commitTableDataRangeEachThread * (j + 1)) tableData.data.length)).2)
      (fun j2 hj2 => hs j2 (by simp [hj2]))
    simp only [runWorkers] at ih2 ⊢
    simp only [List.foldl_cons, List.map_cons, List.sum_cons]
    rw [hslot, ih2, Nat.add_assoc]

/-- Any schedule that runs every chunk once gives the slots and the total of the schedule
in index order. -/
theorem runWorkers_perm (tableData : TableData) (hash : h256) (num : Int)
    (schedule : List Nat) (total : Nat)
    (hp : schedule.Perm (List.range ((tableData.data.length +
      c_commitTableDataRangeEachThread - 1) / c_commitTableDataRangeEachThread))) :
    runWorkers tableData hash num schedule
        (List.replicate ((tableData.data.length + c_commitTableDataRangeEachThread - 1) /
          c_commitTableDataRangeEachThread) none) total =
      runWorkers tableData hash num
        (List.range ((tableData.data.length + c_commitTableDataRangeEachThread - 1) /
          c_commitTableDataRangeEachThread))
        (List.replicate ((tableData.data.length + c_commitTableDataRangeEachThread - 1) /
          c_commitTableDataRangeEachThread) none) total := by
  rw [runWorkers_schedule tableData hash num schedule _ total
      (fun j hj => List.mem_range.1 (hp.mem_iff.1 hj)),
    runWorkers_schedule tableData hash num (List.range _) _ total
      (fun j hj => List.mem_range.1 hj)]
  congr 1
  · apply List.ext_getElem?
    intro k
    rw [foldl_set_getElem?, foldl_set_getElem?]
    simp only [hp.mem_iff]
  · rw [(hp.map _).sum_eq]

/-! ## Lemmas on the frame of commit -/

theorem applyBatch_keeps_keys (batch : WriteBatch) (data : String → Option Record)
    (key : String) (h : (data key).isSome) : (applyBatch batch data key).isSome := by
  induction batch generalizing data with
  | nil => exact h
  | cons put rest ih =>
    simp only [applyBatch, List.foldl_cons] at ih ⊢
    apply ih
    by_cases hk : key = put.1
    · simp [hk]
    · simpa [hk] using h

theorem Write_keeps_keys (db : BasicLevelDB) (sync : Bool) (batch : WriteBatch) (key : String)
    (h : (db.data key).isSome) : ((db.Write sync batch).2.data key).isSome := by
  unfold BasicLevelDB.Write
  cases db.writeFault db.writes.length with
  | some msg => exact h
  | none => exact applyBatch_keeps_keys batch db.data key h

theorem commitTables_keeps_keys (hash : h256) (num : Int) (datas : List TableData)
    (db : BasicLevelDB) (total : Nat) (key : String) (h : (db.data key).isSome) :
    ((commitTables hash num datas db total).2.data key).isSome := by
  induction datas generalizing db total with
  | nil => exact h
  | cons t rest ih =>
    rw [commitTables_cons]
    have hw := Write_keeps_keys db false (slicePuts t.tableName hash num t.data) key h
    split
    · exact hw
    · exact ih _ _ hw

theorem commitTables_defined (hash : h256) (num : Int) (datas : List TableData)
    (db : BasicLevelDB) (total : Nat) :
    (commitTables hash num datas db total).1 ≠ .undefined := by
  induction datas generalizing db total with
  | nil => simp [commitTables]
  | cons t rest ih =>
    rw [commitTables_cons]
    split
    · simp
    · exact ih _ _

/-! ## Lemmas on the chunks run by commit -/

/-- The one write of a commit of one table: a put for every key of the table with non-empty
`Entries`, once each, in key order. -/
theorem commit_single_table_write (hash : h256) (num : Int) (tableData : TableData)
    (db : BasicLevelDB) :
    (commit hash num [tableData] db).2.writes =
      db.writes ++ [(false, (tableData.data.filter (fun kv => kv.2.length ≠ 0)).map
        (fun kv => (tableData.tableName ++ "_" ++ kv.1, encodeEntries hash num kv.2)))] := by
  have hl := Write_log db false (slicePuts tableData.tableName hash num tableData.data)
  rw [commit_engine, commitTables_cons]
  split
  · rw [hl.1]
    rfl
  · rw [commitTables_nil, hl.1]
    rfl

/-! ## The claims -/

/-- C1. Commit-then-select round trip: after a commit of one table with one key and non-empty
`Entries` has returned, `select` on that table and key (its lookup not failing) returns
exactly the committed rows whose status is `NORMAL`, in order, each with its own fields and
with `_hash_` set to the hex of the hash and `_num_` to the decimal text of the number, each
with dirty = false. Rows are well-formed field maps and the status field is not one of the
two provenance fields. -/
theorem commit_select_round_trip (codec : StatusCodec) (db : BasicLevelDB) (table key : String)
    (entries : Entries) (hash : h256) (num : Int) (count : Nat)
    (hne : entries ≠ [])
    (hwf : ∀ row ∈ entries, NodupNames row.fields)
    (hst : codec.field ≠ "_hash_" ∧ codec.field ≠ "_num_")
    (hcommit : (commit hash num [⟨table, [(key, entries)]⟩] db).1 = .returned count)
    (hget : (commit hash num [⟨table, [(key, entries)]⟩] db).2.getFault
      (table ++ "_" ++ key) = none) :
    (select codec (commit hash num [⟨table, [(key, entries)]⟩] db).2 table key).1 =
      .returned ((entries.filter (fun row => row.getStatus codec = Entry.Status.NORMAL)).map
        (fun row =>
          ⟨mapSet (mapSet row.fields "_hash_" hash.hex) "_num_" (toString num), false⟩)) := by
  have hw := commit_returned_first_write hash num _ _ db count hcommit
  have hdata := commit_single_key hash num db table key entries hne hw
  rw [select_found codec _ table key _ hget hdata, decodeRecord_eq, encodeEntries_values]
  simp only [List.filter_map, List.map_map]
  congr 1
  have hfil : (entries.filter ((fun obj =>
        decide ((decodeRow obj).getStatus codec = Entry.Status.NORMAL)) ∘ encodeRow hash num)) =
      entries.filter (fun row => decide (row.getStatus codec = Entry.Status.NORMAL)) := by
    apply List.filter_congr
    intro row hrow
    simp only [Function.comp_apply]
    rw [roundtrip_status codec hash num row (hwf row hrow) hst]
  rw [hfil]
  apply List.map_congr_left
  intro row hrow
  have hmem : row ∈ entries := (List.mem_filter.1 hrow).1
  simp only [Function.comp_apply, Entry.setDirty]
  rw [roundtrip_row hash num row (hwf row hmem)]

/-- Witness of C1: the example of the specification, with a hidden second row. -/
theorem commit_select_round_trip_witness :
    (select sampleCodec (commit sampleHash 5 [⟨"t_test", [("k1", sampleRows)]⟩] emptyDB).2
        "t_test" "k1").1 =
      .returned
        ((sampleRows.filter (fun row => row.getStatus sampleCodec = Entry.Status.NORMAL)).map
          (fun row =>
            ⟨mapSet (mapSet row.fields "_hash_" sampleHash.hex) "_num_" (toString (5 : Int)),
              false⟩)) :=
  commit_select_round_trip sampleCodec emptyDB "t_test" "k1" sampleRows sampleHash 5 1
    (by decide) (by decide) (by decide) (by decide) (by decide)

/-- C2, counterexample. The commit `aliasDatas` has table `a_b`, key `c` with empty `Entries`;
it succeeds, and the record persisted under that table and key is no longer the one
persisted before: the row of table `a`, key `b_c` was written over it. -/
theorem empty_entries_record_overwritten :
    (∃ t ∈ aliasDatas, t.tableName = "a_b" ∧ ("c", []) ∈ t.data) ∧
      aliasDB.data ("a_b" ++ "_" ++ "c") = some oldRecord ∧
      (commit sampleHash 5 aliasDatas aliasDB).1 = .returned 1 ∧
      (commit sampleHash 5 aliasDatas aliasDB).2.data ("a_b" ++ "_" ++ "c") =
        some (encodeEntries sampleHash 5 [⟨[("id", "1")], true⟩]) ∧
      (commit sampleHash 5 aliasDatas aliasDB).2.data ("a_b" ++ "_" ++ "c") ≠
        aliasDB.data ("a_b" ++ "_" ++ "c") := by
  refine ⟨⟨⟨"a_b", [("c", [])]⟩, by decide, by decide, by decide⟩, by decide, by decide,
    by decide, by decide⟩

/-- C2, amended. When some (table, key) of a commit has empty `Entries` and no (table, key)
of the commit with non-empty `Entries` has the same engine key, the record persisted under
that table and key is the same after the call as before it, whatever the outcome. -/
theorem empty_entries_record_untouched (hash : h256) (num : Int) (datas : List TableData)
    (db : BasicLevelDB) (table key : String)
    (_hempty : ∃ t ∈ datas, t.tableName = table ∧ (key, []) ∈ t.data)
    (hno : ∀ t ∈ datas, ∀ kv ∈ t.data, kv.2 ≠ [] →
      t.tableName ++ "_" ++ kv.1 ≠ table ++ "_" ++ key) :
    (commit hash num datas db).2.data (table ++ "_" ++ key) = db.data (table ++ "_" ++ key) :=
  commitTables_untouched hash num datas db 0 (table ++ "_" ++ key) hno

/-- Witness of C2, amended: table `a_b`, key `c` with empty `Entries` next to a written key
of another engine key. -/
theorem empty_entries_record_untouched_witness :
    (commit sampleHash 5 [⟨"a_b", [("c", []), ("d", sampleRows)]⟩] aliasDB).2.data
        ("a_b" ++ "_" ++ "c") = aliasDB.data ("a_b" ++ "_" ++ "c") :=
  empty_entries_record_untouched sampleHash 5 [⟨"a_b", [("c", []), ("d", sampleRows)]⟩] aliasDB
    "a_b" "c" ⟨⟨"a_b", [("c", []), ("d", sampleRows)]⟩, by decide, by decide, by decide⟩
    (by decide)

/-- C3, counterexample. A list that holds the same table twice: every write succeeds and
`commit` returns 2, while one (table name, row key) pair has non-empty `Entries`. -/
theorem commit_count_repeated_table :
    (∀ i, emptyDB.writeFault i = none) ∧
      (commit sampleHash 5 [sampleTable, sampleTable] emptyDB).1 = .returned 2 ∧
      (nonEmptyPairs [sampleTable, sampleTable]).toFinset.card = 1 := by
  refine ⟨fun _ => rfl, by decide, by decide⟩

/-- C3, amended. For a list of tables with pairwise different names (each a map, its row keys
pairwise different) for which every engine write succeeds, `commit` returns the number of
distinct (table name, row key) pairs whose `Entries` is non-empty. -/
theorem commit_count_distinct_pairs (hash : h256) (num : Int) (datas : List TableData)
    (db : BasicLevelDB)
    (hnames : (datas.map (fun t => t.tableName)).Nodup)
    (hkeys : ∀ t ∈ datas, NodupNames t.data)
    (hok : ∀ i, i < datas.length → db.writeFault (db.writes.length + i) = none) :
    (commit hash num datas db).1 = .returned (nonEmptyPairs datas).toFinset.card := by
  rw [commit_returned_iff, commitTables_success hash num datas db 0 hok,
    List.toFinset_card_of_nodup (nonEmptyPairs_nodup datas hnames hkeys),
    nonEmptyPairs_length]
  simp

/-- Witness of C3, amended: two tables, three keys, one of them with empty `Entries`. -/
theorem commit_count_distinct_pairs_witness :
    (commit sampleHash 5 [sampleTable, ⟨"a_b", [("c", []), ("d", sampleRows)]⟩] emptyDB).1 =
      .returned
        (nonEmptyPairs [sampleTable, ⟨"a_b", [("c", []), ("d", sampleRows)]⟩]).toFinset.card :=
  commit_count_distinct_pairs sampleHash 5
    [sampleTable, ⟨"a_b", [("c", []), ("d", sampleRows)]⟩] emptyDB
    (by decide) (by decide) (fun _ _ => rfl)

/-- C4. Parallel-invariance: for every table, hash, number and chunk size `c ≥ 1`, the
batches of `commitTableDataRange` on the consecutive ranges `[c*j, min(c*(j+1), n))`,
appended in chunk-index order by the merge loop, give the same sequence of (engine key,
record) writes as one call over `[0, n)`, and the counts add up to the count of that call. -/
theorem chunked_commit_parallel_invariance (tableData : TableData) (hash : h256) (num : Int)
    (c : Nat) (hc : 1 ≤ c) :
    mergeBatches ((List.range ((tableData.data.length + c - 1) / c)).map (fun j =>
        (commitTableDataRange none tableData hash num (c * j)
          (min (c * (j + 1)) tableData.data.length)).1)) [] =
        some (slotPuts
          (commitTableDataRange none tableData hash num 0 tableData.data.length).1) ∧
      ((List.range ((tableData.data.length + c - 1) / c)).map (fun j =>
        (commitTableDataRange none tableData hash num (c * j)
          (min (c * (j + 1)) tableData.data.length)).2)).sum =
        (commitTableDataRange none tableData hash num 0 tableData.data.length).2 := by
  have hwhole := commitTableDataRange_puts tableData hash num 0 tableData.data.length
  simp only [List.drop_zero, Nat.sub_zero, List.take_length] at hwhole
  rw [hwhole.1, hwhole.2]
  exact chunks_outcome tableData hash num c hc

/-- Witness of C4: a table of three keys encoded in chunks of one key. -/
theorem chunked_commit_parallel_invariance_witness :
    mergeBatches ((List.range ((threeKeyTable.data.length + 1 - 1) / 1)).map (fun j =>
        (commitTableDataRange none threeKeyTable sampleHash 5 (1 * j)
          (min (1 * (j + 1)) threeKeyTable.data.length)).1)) [] =
        some (slotPuts
          (commitTableDataRange none threeKeyTable sampleHash 5 0
            threeKeyTable.data.length).1) ∧
      ((List.range ((threeKeyTable.data.length + 1 - 1) / 1)).map (fun j =>
        (commitTableDataRange none threeKeyTable sampleHash 5 (1 * j)
          (min (1 * (j + 1)) threeKeyTable.data.length)).2)).sum =
        (commitTableDataRange none threeKeyTable sampleHash 5 0
          threeKeyTable.data.length).2 :=
  chunked_commit_parallel_invariance threeKeyTable sampleHash 5 1 (by decide)

/-- C5, the code at the failing input. The engine fails the write of the only table: the
try block of `commit` throws `StorageException(-1, "Commit leveldb exception:" + status)`
(line 198), the handler catches it as `std::exception&` and throws a copy of that static
type (line 216), so what leaves `commit` is an exception but not a `StorageException`, and
no count is returned. -/
theorem commit_failure_loses_storage_exception :
    faultyDB.writeFault faultyDB.writes.length ≠ none ∧
      (commitTables sampleHash 5 [sampleTable] faultyDB 0).1 =
        .thrown (.storage ⟨-1, "Commit leveldb exception:IO error: write"⟩) ∧
      (commit sampleHash 5 [sampleTable] faultyDB).1 = .thrown Exception.stdException ∧
      ∀ e : StorageException,
        (commit sampleHash 5 [sampleTable] faultyDB).1 ≠ .thrown (.storage e) := by
  refine ⟨by decide, by decide, by decide, ?_⟩
  intro e h
  have h2 : (commit sampleHash 5 [sampleTable] faultyDB).1 = .thrown Exception.stdException := by
    decide
  rw [h2] at h
  cases h

/-- C6. When the point lookup of the engine key reports not-found, `select` returns an
`Entries` of size 0 and does not end in an error. -/
theorem select_not_found_empty (codec : StatusCodec) (db : BasicLevelDB) (table key : String)
    (h : (db.Get (table ++ "_" ++ key)).1 = DBStatus.NotFound) :
    (select codec db table key).1 = .returned [] := by
  rw [select_eq, h]
  rfl

/-- Witness of C6: a lookup on an engine that holds no record. -/
theorem select_not_found_empty_witness :
    (select sampleCodec emptyDB "t_test" "k1").1 = .returned [] :=
  select_not_found_empty sampleCodec emptyDB "t_test" "k1" (by decide)

/-- C7. `select` issues exactly one point lookup, on the engine key of (table, key), and
when the lookup reports a status that is neither ok nor not-found `select` ends in an
exception (the one its handler throws) instead of returning `Entries`: it returns no
result, empty or not, and looks up no second time. -/
theorem select_lookup_failure_throws (codec : StatusCodec) (db : BasicLevelDB)
    (table key : String) :
    (select codec db table key).2.gets = db.gets ++ [table ++ "_" ++ key] ∧
      ((db.Get (table ++ "_" ++ key)).1.ok = false →
        (db.Get (table ++ "_" ++ key)).1.IsNotFound = false →
        (select codec db table key).1 = .thrown Exception.stdException ∧
          ∀ entries : Entries, (select codec db table key).1 ≠ .returned entries) := by
  rw [select_eq]
  refine ⟨Get_log db _, ?_⟩
  intro hok hnf
  simp [hok, hnf]

/-- Witness of C7: the engine fails the lookup. -/
theorem select_lookup_failure_throws_witness :
    (select sampleCodec faultyDB "t_test" "k1").1 = .thrown Exception.stdException ∧
      ∀ entries : Entries, (select sampleCodec faultyDB "t_test" "k1").1 ≠ .returned entries :=
  (select_lookup_failure_throws sampleCodec faultyDB "t_test" "k1").2 (by decide) (by decide)

/-- C8, counterexample. A key whose only row has an empty field set: the record put in the
batch, and persisted by `commit`, holds an object for that row (with the two provenance
fields). -/
theorem empty_row_is_encoded :
    slotPuts (commitTableDataRange none ⟨"t", [("k", [⟨[], true⟩])]⟩ sampleHash 5 0 1).1 =
        [("t_k", ⟨[[("_hash_", .str sampleHash.hex), ("_num_", .int 5)]]⟩)] ∧
      (commit sampleHash 5 [⟨"t", [("k", [⟨[], true⟩])]⟩] emptyDB).2.data "t_k" =
        some ⟨[[("_hash_", .str sampleHash.hex), ("_num_", .int 5)]]⟩ := by
  refine ⟨by decide, by decide⟩

/-- C8, amended. When `commit` encodes the keys of a range, what is skipped entirely is a key
whose `Entries` is empty; the record of any other key holds one object for every row, in row
order, and the object of a row with an empty field set holds the two provenance fields. -/
theorem every_row_is_encoded (tableData : TableData) (hash : h256) (num : Int)
    (from_ to_ : Nat) :
    slotPuts (commitTableDataRange none tableData hash num from_ to_).1 =
        (((tableData.data.drop from_).take (to_ - from_)).filter
          (fun kv => kv.2.length ≠ 0)).map
          (fun kv =>
            (tableData.tableName ++ "_" ++ kv.1, (⟨kv.2.map (encodeRow hash num)⟩ : Record))) ∧
      ∀ dirty : Bool,
        encodeRow hash num ⟨[], dirty⟩ = [("_hash_", .str hash.hex), ("_num_", .int num)] := by
  constructor
  · rw [(commitTableDataRange_puts tableData hash num from_ to_).1]
    unfold slicePuts
    apply List.map_congr_left
    intro kv _
    rw [encodeEntries_values]
  · intro dirty
    simp [encodeRow, mapSet]

/-- C9. For a key with non-empty `Entries` in the range of a chunk worker, the batch holds a
put of the record under the engine key of the key; the record is one array `values` with
one object per row in row order, and object `j` holds every field of row `j` other than
`_hash_` and `_num_` with its value, `_hash_` with the hex of the block hash and `_num_`
with the block number (rows being well-formed field maps). -/
theorem persisted_record_format (tableData : TableData) (hash : h256) (num : Int)
    (from_ to_ i : Nat) (key : String) (entries : Entries)
    (hi : tableData.data[i]? = some (key, entries)) (hne : entries ≠ [])
    (hlo : from_ ≤ i) (hhi : i < to_) :
    (tableData.tableName ++ "_" ++ key, encodeEntries hash num entries) ∈
        slotPuts (commitTableDataRange none tableData hash num from_ to_).1 ∧
      (encodeEntries hash num entries).values.length = entries.length ∧
      ∀ (j : Nat) (row : Entry), entries[j]? = some row → NodupNames row.fields →
        ∃ obj, (encodeEntries hash num entries).values[j]? = some obj ∧
          mapGet obj "_hash_" = some (.str hash.hex) ∧
          mapGet obj "_num_" = some (.int num) ∧
          ∀ name, name ≠ "_hash_" → name ≠ "_num_" →
            mapGet obj name = (mapGet row.fields name).map JsonScalar.str := by
  refine ⟨?_, ?_, ?_⟩
  · rw [(commitTableDataRange_puts tableData hash num from_ to_).1]
    have hmem : (key, entries) ∈ (tableData.data.drop from_).take (to_ - from_) := by
      apply List.getElem?_mem (n := i - from_)
      rw [List.getElem?_take_of_lt (by omega), List.getElem?_drop]
      have e : from_ + (i - from_) = i := by omega
      rw [e]
      exact hi
    unfold slicePuts
    refine List.mem_map.2 ⟨(key, entries), List.mem_filter.2 ⟨hmem, ?_⟩, rfl⟩
    simpa using hne
  · rw [encodeEntries_values]
    simp
  · intro j row hj hwf
    refine ⟨encodeRow hash num row, ?_, encodeRow_members hash num row hwf⟩
    rw [encodeEntries_values]
    simp [hj]

/-- Witness of C9: the first key of `threeKeyTable` in the range of the first chunk. -/
theorem persisted_record_format_witness :
    (threeKeyTable.tableName ++ "_" ++ "k1", encodeEntries sampleHash 5 sampleRows) ∈
        slotPuts (commitTableDataRange none threeKeyTable sampleHash 5 0 3).1 ∧
      (encodeEntries sampleHash 5 sampleRows).values.length = sampleRows.length ∧
      ∀ (j : Nat) (row : Entry), sampleRows[j]? = some row → NodupNames row.fields →
        ∃ obj, (encodeEntries sampleHash 5 sampleRows).values[j]? = some obj ∧
          mapGet obj "_hash_" = some (.str sampleHash.hex) ∧
          mapGet obj "_num_" = some (.int 5) ∧
          ∀ name, name ≠ "_hash_" → name ≠ "_num_" →
            mapGet obj name = (mapGet row.fields name).map JsonScalar.str :=
  persisted_record_format threeKeyTable sampleHash 5 0 3 0 "k1" sampleRows
    (by decide) (by decide) (by decide) (by decide)

/-- C10. When the lookup of `select` finds a persisted record (of well-formed row objects),
the returned `Entries` is the sub-sequence, in stored order, of the rows of the record whose
status decodes to `NORMAL`; the field set of each returned entry is the members of the
stored object, `_hash_` and `_num_` included, each value as its text, and each returned entry
has dirty = false. -/
theorem select_returns_normal_rows (codec : StatusCodec) (db : BasicLevelDB)
    (table key : String) (value : Record)
    (hs : (db.Get (table ++ "_" ++ key)).1 = DBStatus.OK)
    (hv : (db.Get (table ++ "_" ++ key)).2.1 = value)
    (hwf : ∀ obj ∈ value.values, NodupNames obj) :
    (select codec db table key).1 =
      .returned ((value.values.map (fun obj =>
          (⟨obj.map (fun member => (member.1, member.2.asString)), false⟩ : Entry))).filter
        (fun entry => entry.getStatus codec = Entry.Status.NORMAL)) := by
  rw [select_eq, hs, hv, decodeRecord_eq]
  simp only [DBStatus.ok, DBStatus.IsNotFound, Bool.not_true, Bool.not_false, Bool.false_and,
    Bool.false_eq_true, if_false, if_true, List.filter_map]
  congr 1
  have hfil : value.values.filter ((fun entry : Entry =>
        decide (entry.getStatus codec = Entry.Status.NORMAL)) ∘ fun obj =>
          (⟨obj.map (fun member => (member.1, member.2.asString)), false⟩ : Entry)) =
      value.values.filter (fun obj =>
        decide ((decodeRow obj).getStatus codec = Entry.Status.NORMAL)) := by
    apply List.filter_congr
    intro obj hobj
    simp only [Function.comp_apply, Entry.getStatus, decodeRow_wf obj (hwf obj hobj)]
  rw [hfil]
  apply List.map_congr_left
  intro obj hobj
  simp only [Entry.setDirty]
  rw [decodeRow_wf obj (hwf obj (List.mem_filter.1 hobj).1)]

/-- Witness of C10: the record persisted by a commit of `sampleTable`. -/
theorem select_returns_normal_rows_witness :
    (select sampleCodec (commit sampleHash 5 [sampleTable] emptyDB).2 "t_test" "k1").1 =
      .returned (((encodeEntries sampleHash 5 sampleRows).values.map (fun obj =>
          (⟨obj.map (fun member => (member.1, member.2.asString)), false⟩ : Entry))).filter
        (fun entry => entry.getStatus sampleCodec = Entry.Status.NORMAL)) :=
  select_returns_normal_rows sampleCodec (commit sampleHash 5 [sampleTable] emptyDB).2
    "t_test" "k1" (encodeEntries sampleHash 5 sampleRows) (by decide) (by decide) (by decide)


/-- C11. Row order is preserved across commit then select: after a commit of non-empty
`Entries` under one (table, key) has returned, the rows `select` returns are the rows of a
sub-sequence of the committed `Entries` (each with the provenance fields set, dirty = false):
returned rows keep the order they were committed in and no committed row is returned twice.
Rows are well-formed field maps, the lookup does not fail and the status field is not a
provenance field. -/
theorem round_trip_keeps_row_order (codec : StatusCodec) (db : BasicLevelDB)
    (table key : String) (entries : Entries) (hash : h256) (num : Int) (count : Nat)
    (hne : entries ≠ [])
    (hwf : ∀ row ∈ entries, NodupNames row.fields)
    (hst : codec.field ≠ "_hash_" ∧ codec.field ≠ "_num_")
    (hcommit : (commit hash num [⟨table, [(key, entries)]⟩] db).1 = .returned count)
    (hget : (commit hash num [⟨table, [(key, entries)]⟩] db).2.getFault
      (table ++ "_" ++ key) = none) :
    ∃ kept : List Entry, kept.Sublist entries ∧
      (select codec (commit hash num [⟨table, [(key, entries)]⟩] db).2 table key).1 =
        .returned (kept.map (fun row =>
          ⟨mapSet (mapSet row.fields "_hash_" hash.hex) "_num_" (toString num), false⟩)) :=
  ⟨entries.filter (fun row => row.getStatus codec = Entry.Status.NORMAL),
    List.filter_sublist _,
    select_after_commit codec db table key entries hash num count hne hwf hst hcommit hget⟩

/-- Witness of C11: the two rows of `sampleRows` committed under `t_test`, `k1`. -/
theorem round_trip_keeps_row_order_witness :
    ∃ kept : List Entry, kept.Sublist sampleRows ∧
      (select sampleCodec (commit sampleHash 5 [⟨"t_test", [("k1", sampleRows)]⟩] emptyDB).2
          "t_test" "k1").1 =
        .returned (kept.map (fun row =>
          ⟨mapSet (mapSet row.fields "_hash_" sampleHash.hex) "_num_" (toString (5 : Int)),
            false⟩)) :=
  round_trip_keeps_row_order sampleCodec emptyDB "t_test" "k1" sampleRows sampleHash 5 1
    (by decide) (by decide) (by decide) (by decide) (by decide)

/-- C12. Abort without undo: when the write of table `i` is the first to fail, `commit` ends
in an exception, the store holds the batches of the tables before `i` applied in list order
(they are not rolled back), and exactly `i + 1` engine writes were issued, those of the
tables up to `i` in list order: there is no retry and no table after `i` is written. -/
theorem commit_abort_without_undo (hash : h256) (num : Int) (datas : List TableData)
    (db : BasicLevelDB) (i : Nat) (hi : i < datas.length)
    (hok : ∀ j, j < i → db.writeFault (db.writes.length + j) = none)
    (hbad : db.writeFault (db.writes.length + i) ≠ none) :
    (∃ e : Exception, (commit hash num datas db).1 = .thrown e) ∧
      (commit hash num datas db).2.data =
        (datas.take i).foldl (fun d t => applyBatch (tableBatch hash num t) d) db.data ∧
      (commit hash num datas db).2.writes =
        db.writes ++ (datas.take (i + 1)).map (fun t => (false, tableBatch hash num t)) ∧
      (commit hash num datas db).2.writes.length = db.writes.length + (i + 1) := by
  have h := commitTables_first_failure hash num datas db 0 i hi hok hbad
  unfold commit
  simp only [tableBatch_eq]
  refine ⟨⟨_, commit_thrown hash num datas db h.1⟩, h.2.2, h.2.1, ?_⟩
  rw [h.2.1]
  simp only [List.length_append, List.length_map, List.length_take]
  omega

/-- Witness of C12: three tables, the write of the second one fails. -/
theorem commit_abort_without_undo_witness :
    (∃ e : Exception, (commit sampleHash 5 threeTables secondWriteFailsDB).1 = .thrown e) ∧
      (commit sampleHash 5 threeTables secondWriteFailsDB).2.data =
        (threeTables.take 1).foldl (fun d t => applyBatch (tableBatch sampleHash 5 t) d)
          secondWriteFailsDB.data ∧
      (commit sampleHash 5 threeTables secondWriteFailsDB).2.writes =
        secondWriteFailsDB.writes ++
          (threeTables.take (1 + 1)).map (fun t => (false, tableBatch sampleHash 5 t)) ∧
      (commit sampleHash 5 threeTables secondWriteFailsDB).2.writes.length =
        secondWriteFailsDB.writes.length + (1 + 1) :=
  commit_abort_without_undo sampleHash 5 threeTables secondWriteFailsDB 1 (by decide)
    (by decide) (by decide)

/-- C13. Scheduling independence: for one table, the chunk workers run in any order (any
permutation of the chunk indices), each writing its own batch slot and adding its count to
the shared total, give the same batch slots, hence the same combined batch after the merge
in index order, and the same total as the workers run in index order. -/
theorem chunk_schedule_independence (tableData : TableData) (hash : h256) (num : Int)
    (schedule : List Nat) (total : Nat)
    (hp : schedule.Perm (List.range ((tableData.data.length +
      c_commitTableDataRangeEachThread - 1) / c_commitTableDataRangeEachThread))) :
    (runWorkers tableData hash num schedule
        (List.replicate ((tableData.data.length + c_commitTableDataRangeEachThread - 1) /
          c_commitTableDataRangeEachThread) none) total).1 =
      (runWorkers tableData hash num
        (List.range ((tableData.data.length + c_commitTableDataRangeEachThread - 1) /
          c_commitTableDataRangeEachThread))
        (List.replicate ((tableData.data.length + c_commitTableDataRangeEachThread - 1) /
          c_commitTableDataRangeEachThread) none) total).1 ∧
    mergeBatches (runWorkers tableData hash num schedule
        (List.replicate ((tableData.data.length + c_commitTableDataRangeEachThread - 1) /
          c_commitTableDataRangeEachThread) none) total).1 [] =
      mergeBatches (runWorkers tableData hash num
        (List.range ((tableData.data.length + c_commitTableDataRangeEachThread - 1) /
          c_commitTableDataRangeEachThread))
        (List.replicate ((tableData.data.length + c_commitTableDataRangeEachThread - 1) /
          c_commitTableDataRangeEachThread) none) total).1 [] ∧
    (runWorkers tableData hash num schedule
        (List.replicate ((tableData.data.length + c_commitTableDataRangeEachThread - 1) /
          c_commitTableDataRangeEachThread) none) total).2 =
      (runWorkers tableData hash num
        (List.range ((tableData.data.length + c_commitTableDataRangeEachThread - 1) /
          c_commitTableDataRangeEachThread))
        (List.replicate ((tableData.data.length + c_commitTableDataRangeEachThread - 1) /
          c_commitTableDataRangeEachThread) none) total).2 := by
  rw [runWorkers_perm tableData hash num schedule total hp]
  exact ⟨rfl, rfl, rfl⟩

/-- Witness of C13: the two chunks of `bigTable`, the second one run first. -/
theorem chunk_schedule_independence_witness :
    (runWorkers bigTable sampleHash 5 [1, 0]
        (List.replicate ((bigTable.data.length + c_commitTableDataRangeEachThread - 1) /
          c_commitTableDataRangeEachThread) none) 0).1 =
      (runWorkers bigTable sampleHash 5
        (List.range ((bigTable.data.length + c_commitTableDataRangeEachThread - 1) /
          c_commitTableDataRangeEachThread))
        (List.replicate ((bigTable.data.length + c_commitTableDataRangeEachThread - 1) /
          c_commitTableDataRangeEachThread) none) 0).1 ∧
    mergeBatches (runWorkers bigTable sampleHash 5 [1, 0]
        (List.replicate ((bigTable.data.length + c_commitTableDataRangeEachThread - 1) /
          c_commitTableDataRangeEachThread) none) 0).1 [] =
      mergeBatches (runWorkers bigTable sampleHash 5
        (List.range ((bigTable.data.length + c_commitTableDataRangeEachThread - 1) /
          c_commitTableDataRangeEachThread))
        (List.replicate ((bigTable.data.length + c_commitTableDataRangeEachThread - 1) /
          c_commitTableDataRangeEachThread) none) 0).1 [] ∧
    (runWorkers bigTable sampleHash 5 [1, 0]
        (List.replicate ((bigTable.data.length + c_commitTableDataRangeEachThread - 1) /
          c_commitTableDataRangeEachThread) none) 0).2 =
      (runWorkers bigTable sampleHash 5
        (List.range ((bigTable.data.length + c_commitTableDataRangeEachThread - 1) /
          c_commitTableDataRangeEachThread))
        (List.replicate ((bigTable.data.length + c_commitTableDataRangeEachThread - 1) /
          c_commitTableDataRangeEachThread) none) 0).2 :=
  chunk_schedule_independence bigTable sampleHash 5 [1, 0] 0 (by
    have h : (bigTable.data.length + c_commitTableDataRangeEachThread - 1) /
        c_commitTableDataRangeEachThread = 2 := by
      simp [bigTable, c_commitTableDataRangeEachThread]
    rw [h]
    decide)

/-- C14, counterexample. The chunk worker on the one key of `sampleTable`, which has two
rows: the batch holds two row objects and the count returned is 1. -/
theorem worker_count_is_not_rows :
    (commitTableDataRange none sampleTable sampleHash 5 0 1).2 = 1 ∧
      batchRows (slotPuts (commitTableDataRange none sampleTable sampleHash 5 0 1).1) = 2 := by
  refine ⟨by decide, by decide⟩

/-- C14, amended. The count a chunk worker returns for its key slice is the number of
records it put into its batch, one per key of the slice whose `Entries` is non-empty. -/
theorem worker_count_is_keys (tableData : TableData) (hash : h256) (num : Int)
    (from_ to_ : Nat) :
    (commitTableDataRange none tableData hash num from_ to_).2 =
        (slotPuts (commitTableDataRange none tableData hash num from_ to_).1).length ∧
      (commitTableDataRange none tableData hash num from_ to_).2 =
        (((tableData.data.drop from_).take (to_ - from_)).filter
          (fun kv => kv.2.length ≠ 0)).length := by
  have h := commitTableDataRange_puts tableData hash num from_ to_
  rw [h.1, h.2]
  simp [slicePuts, sliceCount]

/-- C15. Chunk partition: for a table of `n` row keys the step of `commit` runs exactly
`ceil(n/128)` chunk workers, worker `j` on the index range `[128*j, min(128*(j+1), n))`,
merges their batches in index order and writes the result, so the one write of the table
holds a put for every key with non-empty `Entries`, once each, in key order. The ranges are
consecutive and pairwise disjoint, every range but the last has 128 keys and the last has
between 1 and 128, every index below `n` lies in exactly one range, and `n = 0` gives no
chunk. -/
theorem chunk_partition (tableData : TableData) (hash : h256) (num : Int) (total : Nat)
    (rest : List TableData) (db : BasicLevelDB) :
    c_commitTableDataRangeEachThread = 128 ∧
    (commitTables hash num (tableData :: rest) db total =
      match mergeBatches ((List.range ((tableData.data.length + 128 - 1) / 128)).map (fun j =>
          (commitTableDataRange none tableData hash num (128 * j)
            (min (128 * (j + 1)) tableData.data.length)).1)) [] with
      | none => (.undefined, db)
      | some totalBatch =>
        if !(db.Write false totalBatch).1.ok then
          (.thrown (.storage ⟨-1, "Commit leveldb exception:" ++
            (db.Write false totalBatch).1.ToString⟩), (db.Write false totalBatch).2)
        else
          commitTables hash num rest (db.Write false totalBatch).2
            (total + ((List.range ((tableData.data.length + 128 - 1) / 128)).map (fun j =>
              (commitTableDataRange none tableData hash num (128 * j)
                (min (128 * (j + 1)) tableData.data.length)).2)).sum)) ∧
    ((commit hash num [tableData] db).2.writes =
      db.writes ++ [(false, (tableData.data.filter (fun kv => kv.2.length ≠ 0)).map
        (fun kv => (tableData.tableName ++ "_" ++ kv.1, encodeEntries hash num kv.2)))]) ∧
    (tableData.data.length ≤ 128 * ((tableData.data.length + 128 - 1) / 128) ∧
      128 * ((tableData.data.length + 128 - 1) / 128) < tableData.data.length + 128) ∧
    (runWorkers tableData hash num
        (List.range ((tableData.data.length + c_commitTableDataRangeEachThread - 1) /
          c_commitTableDataRangeEachThread))
        (List.replicate ((tableData.data.length + c_commitTableDataRangeEachThread - 1) /
          c_commitTableDataRangeEachThread) none) total).1 =
      (List.range ((tableData.data.length + 128 - 1) / 128)).map (fun j =>
        (commitTableDataRange none tableData hash num (128 * j)
          (min (128 * (j + 1)) tableData.data.length)).1) ∧
    (∀ j, j + 1 < (tableData.data.length + 128 - 1) / 128 →
      min (128 * (j + 1)) tableData.data.length = 128 * (j + 1) ∧
      min (128 * (j + 1)) tableData.data.length - 128 * j = 128) ∧
    (∀ j, j + 1 = (tableData.data.length + 128 - 1) / 128 →
      min (128 * (j + 1)) tableData.data.length = tableData.data.length ∧
      1 ≤ min (128 * (j + 1)) tableData.data.length - 128 * j ∧
      min (128 * (j + 1)) tableData.data.length - 128 * j ≤ 128) ∧
    (∀ j1 j2, j1 < j2 → j2 < (tableData.data.length + 128 - 1) / 128 →
      min (128 * (j1 + 1)) tableData.data.length ≤ 128 * j2) ∧
    (∀ i, i < tableData.data.length →
      ∃ j, j < (tableData.data.length + 128 - 1) / 128 ∧
        (128 * j ≤ i ∧ i < min (128 * (j + 1)) tableData.data.length) ∧
        ∀ j2, j2 < (tableData.data.length + 128 - 1) / 128 → 128 * j2 ≤ i →
          i < min (128 * (j2 + 1)) tableData.data.length → j2 = j) ∧
    (tableData.data.length = 0 → (tableData.data.length + 128 - 1) / 128 = 0) := by
  refine ⟨rfl, ?_, commit_single_table_write hash num tableData db, ⟨by omega, by omega⟩,
    ?_, ?_, ?_, ?_, ?_, ?_⟩
  · have h := runWorkers_range tableData hash num
      ((tableData.data.length + c_commitTableDataRangeEachThread - 1) /
        c_commitTableDataRangeEachThread)
      ((tableData.data.length + c_commitTableDataRangeEachThread - 1) /
        c_commitTableDataRangeEachThread) total (Nat.le_refl _)
    simp only [Nat.sub_self, List.replicate_zero, List.append_nil] at h
    simp only [commitTables, h]
    rfl
  · have h := runWorkers_range tableData hash num
      ((tableData.data.length + c_commitTableDataRangeEachThread - 1) /
        c_commitTableDataRangeEachThread)
      ((tableData.data.length + c_commitTableDataRangeEachThread - 1) /
        c_commitTableDataRangeEachThread) total (Nat.le_refl _)
    rw [h]
    simp [c_commitTableDataRangeEachThread]
  · intro j hj
    omega
  · intro j hj
    omega
  · intro j1 j2 h1 h2
    omega
  · intro i hi
    refine ⟨i / 128, by omega, by omega, ?_⟩
    intro j2 h2 h3 h4
    omega
  · intro h
    omega

/-- Witness of C15: the 129 keys of `bigTable`, index 128 lies in the second chunk only. -/
theorem chunk_partition_witness :
    ∃ j, j < (bigTable.data.length + 128 - 1) / 128 ∧
      (128 * j ≤ 128 ∧ 128 < min (128 * (j + 1)) bigTable.data.length) ∧
      ∀ j2, j2 < (bigTable.data.length + 128 - 1) / 128 → 128 * j2 ≤ 128 →
        128 < min (128 * (j2 + 1)) bigTable.data.length → j2 = j :=
  (chunk_partition bigTable sampleHash 5 0 [] emptyDB).2.2.2.2.2.2.2.2.1 128 (by
    simp [bigTable])

/-- C16. A commit of `n` tables that returns issues exactly `n` engine writes, one per table
in list order, each with sync = false and each carrying the batches of the chunks of that
table in chunk-index order; a table with no key, or whose keys all have empty `Entries`,
gets its write too, of an empty batch. -/
theorem commit_one_write_per_table (hash : h256) (num : Int) (datas : List TableData)
    (db : BasicLevelDB) (count : Nat)
    (hsucc : (commit hash num datas db).1 = .returned count) :
    (commit hash num datas db).2.writes =
        db.writes ++ datas.map (fun t => (false, tableBatch hash num t)) ∧
      (commit hash num datas db).2.writes.length = db.writes.length + datas.length ∧
      ∀ t ∈ datas, (∀ kv ∈ t.data, kv.2 = []) → tableBatch hash num t = [] := by
  have hok := commit_returned_all_writes hash num datas db count hsucc
  have h := commitTables_writes_ok hash num datas db 0 hok
  unfold commit
  simp only [tableBatch_eq]
  refine ⟨h.1, ?_, ?_⟩
  · rw [h.1]
    simp
  · intro t _ hempty
    unfold slicePuts
    rw [List.filter_eq_nil_iff.2 (fun kv hkv => by simp [hempty kv hkv])]
    rfl

/-- Witness of C16: a commit of a table without keys and of `threeKeyTable`. -/
theorem commit_one_write_per_table_witness :
    (commit sampleHash 5 [⟨"t_none", []⟩, threeKeyTable] emptyDB).2.writes =
        emptyDB.writes ++
          [⟨"t_none", []⟩, threeKeyTable].map (fun t => (false, tableBatch sampleHash 5 t)) ∧
      (commit sampleHash 5 [⟨"t_none", []⟩, threeKeyTable] emptyDB).2.writes.length =
        emptyDB.writes.length + [(⟨"t_none", []⟩ : TableData), threeKeyTable].length ∧
      ∀ t ∈ [(⟨"t_none", []⟩ : TableData), threeKeyTable],
        (∀ kv ∈ t.data, kv.2 = []) → tableBatch sampleHash 5 t = [] :=
  commit_one_write_per_table sampleHash 5 [⟨"t_none", []⟩, threeKeyTable] emptyDB 2 (by decide)

/-- C17. The engine key `select` looks up and `commit` writes for (table, key) is
`table ++ "_" ++ key`, with no escaping, and the encoding is not injective: the different
pairs (`a_b`, `c`) and (`a`, `b_c`) have the same engine key, so after a commit of rows under
(`a_b`, `c`) has returned, `select` on (`a`, `b_c`) returns the `NORMAL` rows committed there.
Rows are well-formed field maps, the lookup does not fail and the status field is not a
provenance field. -/
theorem engine_key_aliasing (codec : StatusCodec) (db : BasicLevelDB) (entries : Entries)
    (hash : h256) (num : Int) (count : Nat)
    (hne : entries ≠ [])
    (hwf : ∀ row ∈ entries, NodupNames row.fields)
    (hst : codec.field ≠ "_hash_" ∧ codec.field ≠ "_num_")
    (hcommit : (commit hash num [⟨"a_b", [("c", entries)]⟩] db).1 = .returned count)
    (hget : (commit hash num [⟨"a_b", [("c", entries)]⟩] db).2.getFault
      ("a_b" ++ "_" ++ "c") = none) :
    (∀ table key : String,
        (select codec db table key).2.gets = db.gets ++ [table ++ "_" ++ key]) ∧
      (∀ table key : String,
        slotPuts (commitTableDataRange none ⟨table, [(key, entries)]⟩ hash num 0 1).1 =
          [(table ++ "_" ++ key, encodeEntries hash num entries)]) ∧
      (("a_b", "c") : String × String) ≠ ("a", "b_c") ∧
      "a_b" ++ "_" ++ "c" = "a" ++ "_" ++ "b_c" ∧
      (select codec (commit hash num [⟨"a_b", [("c", entries)]⟩] db).2 "a" "b_c").1 =
        .returned ((entries.filter (fun row => row.getStatus codec = Entry.Status.NORMAL)).map
          (fun row =>
            ⟨mapSet (mapSet row.fields "_hash_" hash.hex) "_num_" (toString num), false⟩)) := by
  refine ⟨?_, ?_, by decide, by decide, ?_⟩
  · intro table key
    rw [select_eq]
    exact Get_log db _
  · intro table key
    rw [(commitTableDataRange_puts _ hash num 0 1).1]
    simp [slicePuts, hne]
  · rw [select_same_entryKey codec _ "a" "b_c" "a_b" "c" (by decide)]
    exact select_after_commit codec db "a_b" "c" entries hash num count hne hwf hst hcommit hget

/-- Witness of C17: the rows of `sampleRows` committed under (`a_b`, `c`) and read under
(`a`, `b_c`). -/
theorem engine_key_aliasing_witness :
    (select sampleCodec (commit sampleHash 5 [⟨"a_b", [("c", sampleRows)]⟩] emptyDB).2
        "a" "b_c").1 =
      .returned
        ((sampleRows.filter (fun row => row.getStatus sampleCodec = Entry.Status.NORMAL)).map
          (fun row =>
            ⟨mapSet (mapSet row.fields "_hash_" sampleHash.hex) "_num_" (toString (5 : Int)),
              false⟩)) :=
  (engine_key_aliasing sampleCodec emptyDB sampleRows sampleHash 5 1
    (by decide) (by decide) (by decide) (by decide) (by decide)).2.2.2.2

/-- C18. Frame of commit: after a commit that returns, every engine key that is not
`tableName ++ "_" ++ rowKey` for a table of the list and a row key of it with non-empty
`Entries` maps to the same record as before, and every engine key that had a record still
has one: `commit` deletes no key. -/
theorem commit_frame (hash : h256) (num : Int) (datas : List TableData) (db : BasicLevelDB)
    (count : Nat) (_hsucc : (commit hash num datas db).1 = .returned count) :
    (∀ entryKey : String,
        (∀ t ∈ datas, ∀ kv ∈ t.data, kv.2 ≠ [] → t.tableName ++ "_" ++ kv.1 ≠ entryKey) →
        (commit hash num datas db).2.data entryKey = db.data entryKey) ∧
      (∀ entryKey : String, (db.data entryKey).isSome →
        ((commit hash num datas db).2.data entryKey).isSome) :=
  ⟨fun entryKey hno => commitTables_untouched hash num datas db 0 entryKey hno,
    fun entryKey h => commitTables_keeps_keys hash num datas db 0 entryKey h⟩

/-- Witness of C18: a commit of `threeKeyTable` on an engine that holds a record under
`a_b_c`. -/
theorem commit_frame_witness :
    (commit sampleHash 5 [threeKeyTable] aliasDB).2.data "a_b_c" = aliasDB.data "a_b_c" ∧
      ((commit sampleHash 5 [threeKeyTable] aliasDB).2.data "a_b_c").isSome :=
  ⟨(commit_frame sampleHash 5 [threeKeyTable] aliasDB 2 (by decide)).1 "a_b_c" (by decide),
    (commit_frame sampleHash 5 [threeKeyTable] aliasDB 2 (by decide)).2 "a_b_c" (by decide)⟩

/-- C19. Every batch the merge step dereferences was created: for every table and every
chunk index `j` below the number of chunks the range handed to `commitTableDataRange` has
`from < to`, so slot `j` holds a batch after the parallel loop, the merge loop meets no null
slot, and `commit` never dereferences a null batch. -/
theorem merged_batches_are_created (tableData : TableData) (hash : h256) (num : Int)
    (total : Nat) (datas : List TableData) (db : BasicLevelDB) :
    (∀ j, j < (tableData.data.length + c_commitTableDataRangeEachThread - 1) /
        c_commitTableDataRangeEachThread →
      c_commitTableDataRangeEachThread * j <
          min (c_commitTableDataRangeEachThread * (j + 1)) tableData.data.length ∧
        ∃ b, (runWorkers tableData hash num
          (List.range ((tableData.data.length + c_commitTableDataRangeEachThread - 1) /
            c_commitTableDataRangeEachThread))
          (List.replicate ((tableData.data.length + c_commitTableDataRangeEachThread - 1) /
            c_commitTableDataRangeEachThread) none) total).1[j]? = some (some b)) ∧
      (∃ totalBatch, mergeBatches (runWorkers tableData hash num
          (List.range ((tableData.data.length + c_commitTableDataRangeEachThread - 1) /
            c_commitTableDataRangeEachThread))
          (List.replicate ((tableData.data.length + c_commitTableDataRangeEachThread - 1) /
            c_commitTableDataRangeEachThread) none) total).1 [] = some totalBatch) ∧
      (commit hash num datas db).1 ≠ .undefined := by
  refine ⟨?_, ⟨_, (table_step tableData hash num total).1⟩,
    fun hu => commitTables_defined hash num datas db 0
      ((commit_undefined_iff hash num datas db).1 hu)⟩
  intro j hj
  have hlt := chunk_range_nonempty tableData.data.length c_commitTableDataRangeEachThread j
    (by decide) hj
  refine ⟨hlt, ?_⟩
  rw [runWorkers_range tableData hash num _ _ total (Nat.le_refl _)]
  simp only [Nat.sub_self, List.replicate_zero, List.append_nil, List.getElem?_map]
  rw [List.getElem?_range hj]
  simp only [Option.map_some']
  rw [commitTableDataRange_eq none tableData hash num _ _ hlt]
  exact ⟨_, rfl⟩

/-- Witness of C19: the second chunk of `bigTable`. -/
theorem merged_batches_are_created_witness :
    c_commitTableDataRangeEachThread * 1 <
        min (c_commitTableDataRangeEachThread * (1 + 1)) bigTable.data.length ∧
      ∃ b, (runWorkers bigTable sampleHash 5
        (List.range ((bigTable.data.length + c_commitTableDataRangeEachThread - 1) /
          c_commitTableDataRangeEachThread))
        (List.replicate ((bigTable.data.length + c_commitTableDataRangeEachThread - 1) /
          c_commitTableDataRangeEachThread) none) 0).1[1]? = some (some b) :=
  (merged_batches_are_created bigTable sampleHash 5 0 [] emptyDB).1 1 (by
    simp [bigTable, c_commitTableDataRangeEachThread])

end LevelDBStorage
